import Mathlib

/-!
Verification of the `htmlhl` HTML syntax-highlighting pipeline (`src/main.rs`).

The development shallowly embeds the string-processing core of the program:

* `html_unescape` (entity decoding) is modelled at the byte level
  (`List Nat`, each entry `< 256`), because the Rust function indexes the
  UTF-8 byte representation of its input directly; a result of `none`
  models a Rust panic (an out-of-boundary string slice).
* `extract_class_attr`, `update_or_add_class` and the `<pre><code>` block
  rewriter `highlight_html` are modelled over `List Char`, mirroring the
  deterministic regular expressions of the source, including the capture
  group interpolation (`$0`, `$1`, ...) that `regex::Regex::replace`
  performs on its replacement string.
* the tree-sitter highlighting engine is an external collaborator and is
  modelled as an explicit function argument; `none` models its `Err` result.
-/

namespace Htmlhl

/-! ## Byte- and character-level helpers -/

/-- Unicode `White_Space` code points, as matched by Rust's
`char::is_whitespace`, by `str::trim`, by `split_whitespace` and by the
regex class `\s` (Unicode mode, the default). -/
def wsCodes : List Nat :=
  [0x9, 0xA, 0xB, 0xC, 0xD, 0x20, 0x85, 0xA0, 0x1680,
   0x2000, 0x2001, 0x2002, 0x2003, 0x2004, 0x2005, 0x2006, 0x2007,
   0x2008, 0x2009, 0x200A, 0x2028, 0x2029, 0x202F, 0x205F, 0x3000]

/-- Whitespace test on characters (Rust `char::is_whitespace`). -/
def isWs (c : Char) : Bool := wsCodes.contains c.toNat

/-- UTF-8 encoding of one Unicode scalar value. -/
def utf8Encode (c : Nat) : List Nat :=
  if c < 0x80 then [c]
  else if c < 0x800 then
    [0xC0 + c / 0x40, 0x80 + c % 0x40]
  else if c < 0x10000 then
    [0xE0 + c / 0x1000, 0x80 + (c / 0x40) % 0x40, 0x80 + c % 0x40]
  else
    [0xF0 + c / 0x40000, 0x80 + (c / 0x1000) % 0x40,
     0x80 + (c / 0x40) % 0x40, 0x80 + c % 0x40]

/-- UTF-8 byte sequence of a character list (Rust `str::as_bytes`). -/
def utf8Bytes (s : List Char) : List Nat :=
  s.flatMap (fun c => utf8Encode c.toNat)

/-- A UTF-8 continuation byte (`0x80 ≤ b < 0xC0`).  A byte index sitting on
such a byte is not a char boundary in Rust, so slicing there panics. -/
def contByte (b : Nat) : Bool := 0x80 ≤ b && b < 0xC0

/-- Byte length of the UTF-8 character whose lead byte is `b`
(Rust `char::len_utf8` of the character decoded at that position). -/
def utf8LenOfLead (b : Nat) : Nat :=
  if b < 0x80 then 1 else if b < 0xE0 then 2 else if b < 0xF0 then 3 else 4

/-! ## Numeric reference parsing (Rust `u32::from_str_radix` / `str::parse::<u32>`) -/

/-- Digit value of one byte in the given radix (`char::to_digit`). -/
def digitVal (radix : Nat) (b : Nat) : Option Nat :=
  if 0x30 ≤ b && b ≤ 0x39 && b - 0x30 < radix then some (b - 0x30)
  else if 0x61 ≤ b && b + 10 - 0x61 < radix then some (b + 10 - 0x61)
  else if 0x41 ≤ b && b + 10 - 0x41 < radix then some (b + 10 - 0x41)
  else none

/-- Accumulate digits with the `u32` overflow check of `from_str_radix`. -/
def parseDigitsAux (radix : Nat) : List Nat → Nat → Option Nat
  | [], acc => some acc
  | b :: bs, acc =>
    match digitVal radix b with
    | none => none
    | some d =>
      if acc * radix + d ≤ 0xFFFFFFFF then parseDigitsAux radix bs (acc * radix + d)
      else none

/-- Parse a non-empty unsigned digit string. -/
def parseDigits (radix : Nat) (bs : List Nat) : Option Nat :=
  match bs with
  | [] => none
  | _ :: _ => parseDigitsAux radix bs 0

/-- Rust `u32::from_str_radix` on a byte string: an optional leading `+` is
accepted; for an unsigned target the `-` arm is guarded by `is_signed_ty`, so
any leading `-` is an invalid digit and the parse fails. -/
def fromStrRadix (radix : Nat) (bs : List Nat) : Option Nat :=
  match bs with
  | 0x2B :: rest => parseDigits radix rest
  | 0x2D :: _ => none
  | _ => parseDigits radix bs

/-- Rust `char::from_u32` succeeds: a scalar value below `0x110000` that is
not a surrogate. -/
def validScalar (code : Nat) : Bool :=
  code < 0x110000 && !(0xD800 ≤ code && code < 0xE000)

/-! ## `html_unescape` (src/main.rs lines 111–165), modelled on UTF-8 bytes.

The Rust loop tests `&s[i..i + 1.min(s.len() - i)] == "&"`.  Inside the loop
`i < s.len()`, so the slice is `s[i..i + 1]`; that slice panics whenever byte
`i + 1` falls inside a multi-byte character, i.e. whenever the byte after the
current position is a continuation byte.  `none` models that panic. -/

/-- The numeric-reference path shared by `&#x`/`&#X` (radix 16, digits
starting at offset 3 of the `&…` suffix) and `&#` (radix 10, offset 2):
find the first `;` in the suffix `0x26 :: rest`, parse the digit slice, and
validate the scalar; on success return the scalar value and the byte index
of the `;`. -/
def numRef (radix off : Nat) (rest : List Nat) : Option (Nat × Nat) :=
  match (0x26 :: rest).findIdx? (fun x => x == 0x3B) with
  | some j =>
    match fromStrRadix radix (((0x26 :: rest).drop off).take (j - off)) with
    | some code => if validScalar code then some (code, j) else none
    | none => none
  | none => none

/-- The branch taken when the loop sits on a `&` whose remaining text is
`rest`: the bytes pushed to the output and the remaining input.  Mirrors
the if-chain of the Rust loop body; every fall-through path pushes a
literal `&` and resumes at the next byte. -/
def ampStep (rest : List Nat) : List Nat × List Nat :=
  if ("lt;".toList.map Char.toNat).isPrefixOf rest then ([0x3C], rest.drop 3)
  else if ("gt;".toList.map Char.toNat).isPrefixOf rest then ([0x3E], rest.drop 3)
  else if ("amp;".toList.map Char.toNat).isPrefixOf rest then ([0x26], rest.drop 4)
  else if ("quot;".toList.map Char.toNat).isPrefixOf rest then ([0x22], rest.drop 5)
  else if [0x23, 0x78].isPrefixOf rest || [0x23, 0x58].isPrefixOf rest then
    match numRef 16 3 rest with
    | some (code, j) => (utf8Encode code, (0x26 :: rest).drop (j + 1))
    | none => ([0x26], rest)
  else if [0x23].isPrefixOf rest then
    match numRef 10 2 rest with
    | some (code, j) => (utf8Encode code, (0x26 :: rest).drop (j + 1))
    | none => ([0x26], rest)
  else ([0x26], rest)

/-- The branch taken on a byte other than `&`: the character at the current
position is decoded, re-emitted (same bytes) and skipped. -/
def charStep (b : Nat) (rest : List Nat) : List Nat × List Nat :=
  ((b :: rest).take (utf8LenOfLead b), (b :: rest).drop (utf8LenOfLead b))

/-- One pass of the decoding loop, with `fuel` bounding the number of
iterations (every iteration consumes at least one byte, so `fuel = s.length`
is always enough). -/
def unescapeGo : Nat → List Nat → Option (List Nat)
  | _, [] => some []
  | 0, _ :: _ => none
  | fuel + 1, b :: rest =>
    -- the slice `&s[i..i+1]` panics when i or i+1 is not a char boundary
    if contByte b then none
    else if (match rest.head? with | some r => contByte r | none => false) then none
    else
      let er := if b = 0x26 then ampStep rest else charStep b rest
      (unescapeGo fuel er.2).map (fun t => er.1 ++ t)

/-- `html_unescape` on a UTF-8 byte string; `none` models a panic. -/
def html_unescape (s : List Nat) : Option (List Nat) :=
  unescapeGo s.length s

/-- The branch conditions under which the decoding loop, positioned on a `&`
with remaining text `rest`, recognizes a complete character reference: one of
the four named entities, or a numeric reference with a terminating `;`, valid
digits and a valid scalar value.  When this is `false` the loop falls through
to emitting a literal `&`. -/
def recognizedRef (rest : List Nat) : Bool :=
  ("lt;".toList.map Char.toNat).isPrefixOf rest ||
  ("gt;".toList.map Char.toNat).isPrefixOf rest ||
  ("amp;".toList.map Char.toNat).isPrefixOf rest ||
  ("quot;".toList.map Char.toNat).isPrefixOf rest ||
  (([0x23, 0x78].isPrefixOf rest || [0x23, 0x58].isPrefixOf rest) &&
    (numRef 16 3 rest).isSome) ||
  (!([0x23, 0x78].isPrefixOf rest || [0x23, 0x58].isPrefixOf rest) &&
    [0x23].isPrefixOf rest && (numRef 10 2 rest).isSome)

/-! ## The class-attribute regexes (src/main.rs lines 167–236)

`class\s*=\s*"([^"]*)"` and its single-quote twin are deterministic: each
`\s*` is followed by a non-whitespace literal and `[^"]*` is followed by `"`,
so greedy matching never backtracks.  A match anchored at one position is
`classAttrAt`; the leftmost match of the whole string is `findClass`.
`extract_class_attr` uses the `+` variants (value non-empty). -/

/-- Double quote and single quote characters. -/
def dq : Char := Char.ofNat 34

/-- Single quote character. -/
def sq : Char := Char.ofNat 39

/-- Parse `class\s*=\s*<q>` at the start of `s`; returns the number of
characters consumed (including the opening quote). -/
def classKeyAt (q : Char) (s : List Char) : Option Nat :=
  if "class".toList.isPrefixOf s then
    let t1 := s.drop 5
    match t1.dropWhile isWs with
    | '=' :: t3 =>
      match t3.dropWhile isWs with
      | c :: _ =>
        if c = q then
          some (5 + (t1.takeWhile isWs).length + 1 + (t3.takeWhile isWs).length + 1)
        else none
      | [] => none
    | _ => none
  else none

/-- Match the full class-attribute regex at the start of `s`; returns
(length of the whole match, captured value).  With `plus := true` the value
must be non-empty (`[^"]+`), as in `extract_class_attr`. -/
def classAttrAt (q : Char) (plus : Bool) (s : List Char) : Option (Nat × List Char) :=
  match classKeyAt q s with
  | none => none
  | some n =>
    if plus && ((s.drop n).takeWhile (fun c => c ≠ q)).isEmpty then none
    else
      match (s.drop n).dropWhile (fun c => c ≠ q) with
      | c :: _ =>
        if c = q then
          some (n + ((s.drop n).takeWhile (fun c => c ≠ q)).length + 1,
            (s.drop n).takeWhile (fun c => c ≠ q))
        else none
      | [] => none

/-- Leftmost match of the class-attribute regex: (position, length, value). -/
def findClass (q : Char) (plus : Bool) : List Char → Option (Nat × Nat × List Char)
  | [] => none
  | c :: rest =>
    match classAttrAt q plus (c :: rest) with
    | some (len, v) => some (0, len, v)
    | none => (findClass q plus rest).map (fun r => (r.1 + 1, r.2.1, r.2.2))

/-- `extract_class_attr` (src/main.rs lines 167–177): first capture of the
double-quote regex, else of the single-quote regex, else `None`. -/
def extract_class_attr (attrs : List Char) : Option (List Char) :=
  match findClass dq true attrs with
  | some (_, _, v) => some v
  | none =>
    match findClass sq true attrs with
    | some (_, _, v) => some v
    | none => none

/-! ## Whitespace splitting, trimming and joining -/

/-- Accumulator pass for `split_whitespace`. -/
def splitWsAux : List Char → List Char → List (List Char)
  | [], acc => if acc.isEmpty then [] else [acc.reverse]
  | c :: rest, acc =>
    if isWs c then
      if acc.isEmpty then splitWsAux rest []
      else acc.reverse :: splitWsAux rest []
    else splitWsAux rest (c :: acc)

/-- Rust `str::split_whitespace` collected into a list. -/
def splitWs (s : List Char) : List (List Char) := splitWsAux s []

/-- Rust `str::trim`. -/
def trimWs (s : List Char) : List Char :=
  ((s.dropWhile isWs).reverse.dropWhile isWs).reverse

/-- The token-union loop of `update_or_add_class`: push each new token not
already present, keeping order. -/
def pushMissing (parts : List (List Char)) : List (List Char) → List (List Char)
  | [] => parts
  | t :: ts =>
    if parts.contains t then pushMissing parts ts else pushMissing (parts ++ [t]) ts

/-! ## Capture-group interpolation of `Regex::replace`

A `&str` replacement is interpolated: `$$` is a literal `$`; `$name` (longest
run of ASCII alphanumerics and `_`) and `${name}` are capture references,
where a reference that parses as an integer designates that capture group and
anything else an (absent, hence empty) named group; a `$` that starts no
reference stays literal and scanning resumes at the next character. -/

/-- Characters allowed in an unbraced capture reference name. -/
def refNameChar (c : Char) : Bool :=
  (0x30 ≤ c.toNat && c.toNat ≤ 0x39) || (0x41 ≤ c.toNat && c.toNat ≤ 0x5A) ||
  (0x61 ≤ c.toNat && c.toNat ≤ 0x7A) || c.toNat == 0x5F

/-- Decimal value of an all-digit name; `none` when a non-digit occurs. -/
def digitsToNat : List Char → Nat → Option Nat
  | [], acc => some acc
  | c :: cs, acc =>
    if 0x30 ≤ c.toNat && c.toNat ≤ 0x39 then digitsToNat cs (acc * 10 + (c.toNat - 0x30))
    else none

/-- Substitution for one capture reference: group 0 is the whole match,
group 1 the value capture, anything else (including named groups, which the
class regexes do not have) the empty string. -/
def groupSubst (m0 m1 : List Char) (name : List Char) : List Char :=
  match digitsToNat name 0 with
  | some 0 => m0
  | some 1 => m1
  | _ => []

/-- Interpolation pass over the replacement template (`fuel` bounds the
iterations; every step consumes at least one character). -/
def expandGo (m0 m1 : List Char) : Nat → List Char → List Char
  | _, [] => []
  | 0, t => t
  | fuel + 1, c :: rest =>
    if c = '$' then
      match rest with
      | [] => ['$']
      | c2 :: rest2 =>
        if c2 = '$' then '$' :: expandGo m0 m1 fuel rest2
        else if c2 = Char.ofNat 0x7B then
          let nm := rest2.takeWhile (fun d => d ≠ Char.ofNat 0x7D)
          if (rest2.drop nm.length).isEmpty || nm.isEmpty then
            '$' :: expandGo m0 m1 fuel rest
          else
            groupSubst m0 m1 nm ++ expandGo m0 m1 fuel (rest2.drop (nm.length + 1))
        else
          let nm := rest.takeWhile refNameChar
          if nm.isEmpty then '$' :: expandGo m0 m1 fuel rest
          else groupSubst m0 m1 nm ++ expandGo m0 m1 fuel (rest.drop nm.length)
    else c :: expandGo m0 m1 fuel rest

/-- Interpolate a replacement template against (whole match, capture 1). -/
def expand (m0 m1 t : List Char) : List Char := expandGo m0 m1 t.length t

/-! ## `update_or_add_class` (src/main.rs lines 181–236) -/

/-- Rust `Vec::join(" ")`. -/
def joinSp : List (List Char) → List Char
  | [] => []
  | [t] => t
  | t :: ts => t ++ ' ' :: joinSp ts

/-- The `combined` string built from `add_classes` and `add_lang`. -/
def combinedOf (add_classes : List Char) (add_lang : Option (List Char)) : List Char :=
  match add_lang with
  | none => add_classes
  | some l => if add_classes.isEmpty then l else add_classes ++ ' ' :: l

/-- The final normalization: empty for an all-whitespace attribute string,
otherwise a space is prepended unless the string already starts with one. -/
def attrsNorm (updated : List Char) : List Char :=
  if (trimWs updated).isEmpty then []
  else
    match updated with
    | [] => []
    | c :: rest => if c = ' ' then c :: rest else ' ' :: c :: rest

/-- `update_or_add_class`: union the combined class tokens into the first
double-quoted `class` attribute, else the first single-quoted one, else
append a fresh ` class="…"`; finally normalize with `attrsNorm`. -/
def update_or_add_class (attrs : List Char) (add_classes : List Char)
    (add_lang : Option (List Char)) : List Char :=
  let combined := combinedOf add_classes add_lang
  let updated :=
    match findClass dq false attrs with
    | some (pos, len, existing) =>
      let parts := pushMissing (splitWs existing) (splitWs combined)
      let tmpl := "class=\"".toList ++ joinSp parts ++ [dq]
      attrs.take pos ++ expand ((attrs.drop pos).take len) existing tmpl
        ++ attrs.drop (pos + len)
    | none =>
      match findClass sq false attrs with
      | some (pos, len, existing) =>
        let parts := pushMissing (splitWs existing) (splitWs combined)
        let tmpl := "class=".toList ++ sq :: joinSp parts ++ [sq]
        attrs.take pos ++ expand ((attrs.drop pos).take len) existing tmpl
          ++ attrs.drop (pos + len)
      | none =>
        if combined.isEmpty then attrs
        else if (trimWs attrs).isEmpty then ' ' :: "class=\"".toList ++ combined ++ [dq]
        else attrs ++ ' ' :: "class=\"".toList ++ combined ++ [dq]
  attrsNorm updated

/-! ## Language registry and resolution (src/main.rs lines 19–67, 253–274) -/

/-- The keys inserted into `language_map`. -/
def language_map_keys : List (List Char) :=
  ["rust".toList, "javascript".toList, "html".toList, "css".toList, "python".toList]

/-- `configs.contains_key(token)`. -/
def containsKey (t : List Char) : Bool := language_map_keys.contains t

/-- The token loop: first whitespace-split token that is a registry key. -/
def firstRegistered : List (List Char) → Option (List Char)
  | [] => none
  | t :: ts => if containsKey t then some t else firstRegistered ts

/-- Language resolution: the code tag's class tokens first, then the pre
tag's class tokens. -/
def resolveLang (code_attrs pre_attrs : List Char) : Option (List Char) :=
  let fromCode :=
    match extract_class_attr code_attrs with
    | some cc => firstRegistered (splitWs cc)
    | none => none
  match fromCode with
  | some l => some l
  | none =>
    match extract_class_attr pre_attrs with
    | some pc => firstRegistered (splitWs pc)
    | none => none

/-! ## The block regex (src/main.rs lines 240–305)

`(?s)<pre(?P<pre_attrs>[^>]*)>\s*<code(?P<code_attrs>[^>]*)>(?P<code>.*?)</code>\s*</pre>`
is deterministic: each `[^>]*` is followed by `>`, each `\s*` by a literal
starting with a non-whitespace character, and the lazy body extends to the
first position where `</code>\s*</pre>` matches. -/

/-- Match `</code>\s*</pre>` at the start of `s`; returns its length. -/
def closeLen (s : List Char) : Option Nat :=
  if "</code>".toList.isPrefixOf s then
    let t := s.drop 7
    if "</pre>".toList.isPrefixOf (t.dropWhile isWs) then
      some (7 + (t.takeWhile isWs).length + 6)
    else none
  else none

/-- Least body length `k` such that the closing pattern matches after it,
together with the length of that closing pattern. -/
def findClose : List Char → Option (Nat × Nat)
  | [] => none
  | c :: rest =>
    match closeLen (c :: rest) with
    | some m => some (0, m)
    | none => (findClose rest).map (fun r => (r.1 + 1, r.2))

/-- Match the block regex at the start of `s`; returns
(pre attrs, code attrs, body, total match length). -/
def matchBlockAt (s : List Char) : Option (List Char × List Char × List Char × Nat) :=
  if "<pre".toList.isPrefixOf s then
    let t1 := s.drop 4
    let pa := t1.takeWhile (fun c => c ≠ '>')
    match t1.dropWhile (fun c => c ≠ '>') with
    | c :: t2 =>
      if c = '>' then
        let w1 := t2.takeWhile isWs
        let t3 := t2.dropWhile isWs
        if "<code".toList.isPrefixOf t3 then
          let t4 := t3.drop 5
          let ca := t4.takeWhile (fun x => x ≠ '>')
          match t4.dropWhile (fun x => x ≠ '>') with
          | d :: t5 =>
            if d = '>' then
              match findClose t5 with
              | some (k, m) =>
                some (pa, ca, t5.take k,
                  4 + pa.length + 1 + w1.length + 5 + ca.length + 1 + k + m)
              | none => none
            else none
          | [] => none
        else none
      else none
    | [] => none
  else none

/-- The replacement closure of `re.replace_all`: resolve a language, decode
the body (`none` propagates the decoder's panic), run the engine, and either
build the highlighted `<div>` wrapper or fall back to the original span. -/
def processBlock (engine : List Char → List Nat → Option (List Char))
    (pre_attrs code_attrs code full : List Char) : Option (List Char) :=
  match resolveLang code_attrs pre_attrs with
  | some lang =>
    match html_unescape (utf8Bytes code) with
    | none => none
    | some decoded =>
      match engine lang decoded with
      | some rendered =>
        some ("<div class=\"sourceCode\"><pre".toList
          ++ update_or_add_class pre_attrs ("sourceCode".toList) none
          ++ "><code".toList
          ++ update_or_add_class code_attrs ("sourceCode".toList) (some lang)
          ++ ">".toList ++ rendered ++ "</code></pre></div>".toList)
      | none => some full
  | none => some full

/-- The left-to-right non-overlapping scan of `replace_all` (`fuel` bounds
the iterations; every step consumes at least one character). -/
def highlightGo (engine : List Char → List Nat → Option (List Char)) :
    Nat → List Char → Option (List Char)
  | _, [] => some []
  | 0, _ :: _ => none
  | fuel + 1, c :: rest =>
    match matchBlockAt (c :: rest) with
    | some (pa, ca, code, len) =>
      match processBlock engine pa ca code ((c :: rest).take len) with
      | none => none
      | some rep =>
        (highlightGo engine fuel ((c :: rest).drop len)).map (fun out => rep ++ out)
    | none => (highlightGo engine fuel rest).map (fun out => c :: out)

/-- `highlight_html`, parametrized by the external highlighting engine
(`engine lang decoded = none` models a `highlight_to_html` error);
`none` models a panic of the pipeline. -/
def highlight_html (engine : List Char → List Nat → Option (List Char))
    (input : List Char) : Option (List Char) :=
  highlightGo engine input.length input

/-- Whitespace-split class tokens of an attribute string, as used by the
language resolution (empty when no class attribute is extracted). -/
def classTokens (attrs : List Char) : List (List Char) :=
  match extract_class_attr attrs with
  | some v => splitWs v
  | none => []

/-- Language resolution as the specification words it: the first
whitespace-split class token of the code tag that is a registry key, and
only if none matches, the same search over the pre tag's tokens. -/
def resolveSpec (code_attrs pre_attrs : List Char) : Option (List Char) :=
  match (classTokens code_attrs).find? (fun t => containsKey t) with
  | some l => some l
  | none => (classTokens pre_attrs).find? (fun t => containsKey t)

/-! ## Helper lemmas: `html_unescape` -/

/-- The decoder maps the empty byte string to itself at any fuel. -/
theorem unescapeGo_nil (fuel : Nat) : unescapeGo fuel [] = some [] := by
  cases fuel <;> rfl

/-- Pure ASCII text with no ampersand passes through the decoder
unchanged. -/
theorem unescapeGo_ascii (s : List Nat) : ∀ fuel, s.length ≤ fuel →
    (∀ b ∈ s, b < 0x80 ∧ b ≠ 0x26) → unescapeGo fuel s = some s := by
  induction s with
  | nil => intro fuel _ _; exact unescapeGo_nil fuel
  | cons b rest ih =>
    intro fuel hf hall
    match fuel with
    | 0 => simp at hf
    | f + 1 =>
      have hb := hall b (by simp)
      have hrest : ∀ x ∈ rest, x < 0x80 ∧ x ≠ 0x26 :=
        fun x hx => hall x (by simp [hx])
      have h1 : contByte b = false := by
        simp only [contByte, Bool.and_eq_false_iff]
        left; simp; omega
      have h2 : (match rest.head? with | some r => contByte r | none => false) = false := by
        cases rest with
        | nil => rfl
        | cons r t =>
          have := (hrest r (by simp)).1
          simp only [List.head?_cons, contByte, Bool.and_eq_false_iff]
          left; simp; omega
      have h3 : utf8LenOfLead b = 1 := by
        simp only [utf8LenOfLead, if_pos hb.1]
      rw [unescapeGo]
      rw [if_neg (show ¬(contByte b = true) by simp [h1])]
      rw [if_neg (show ¬((match rest.head? with
        | some r => contByte r | none => false) = true) by simp [h2])]
      simp only [if_neg hb.2, charStep, h3, List.take_succ_cons, List.take_zero,
        List.drop_succ_cons, List.drop_zero]
      rw [ih f (by simpa using hf) hrest]
      rfl

/-! ## Claim theorems: C1, C7, C8 -/

/-- Claim C1: the specification says `html_unescape` never fails and never
splits multi-byte characters.  The code, however, takes the byte slice
`&s[i..i + 1]`, which panics as soon as the character at the current
position is multi-byte (byte `i + 1` is not a character boundary): on the
two-byte input `é` the decoder panics instead of passing the character
through. -/
theorem c1_unescape_multibyte_panics :
    html_unescape (utf8Bytes ("é".toList)) = none := by decide

/-- Claim C7 counterexample: `&lt;` is in the image of the decoder
(it is `html_unescape "&amp;lt;"`), yet decoding it again yields `<`,
so decoding is not idempotent on already-decoded text. -/
theorem c7_counterexample :
    html_unescape (("&amp;lt;".toList).map Char.toNat)
        = some (("&lt;".toList).map Char.toNat) ∧
      html_unescape (("&lt;".toList).map Char.toNat)
        = some (("<".toList).map Char.toNat) ∧
      ("&lt;".toList).map Char.toNat ≠ ("<".toList).map Char.toNat :=
  ⟨by decide, by decide, by decide⟩

/-- Claim C7 (amended): decoding is idempotent on decoded output that is
pure ASCII and free of `&`: a second pass cannot reinterpret anything
because every remaining character is copied verbatim.  (Decoded output
containing `&` can be reinterpreted — see the counterexample — and decoded
output containing multi-byte characters makes a second pass panic.) -/
theorem c7_idempotent_ascii_no_amp (t s : List Nat)
    (_himg : html_unescape t = some s)
    (hascii : ∀ b ∈ s, b < 0x80)
    (hamp : 0x26 ∉ s) :
    html_unescape s = some s := by
  have h : ∀ b ∈ s, b < 0x80 ∧ b ≠ 0x26 :=
    fun b hb => ⟨hascii b hb, fun h => hamp (h ▸ hb)⟩
  exact unescapeGo_ascii s s.length le_rfl h

/-- Witness for C7 (amended) at `t = "&lt;"`, `s = "<"`. -/
theorem c7_idempotent_ascii_no_amp_w :
    html_unescape (("<".toList).map Char.toNat)
      = some (("<".toList).map Char.toNat) :=
  c7_idempotent_ascii_no_amp (("&lt;".toList).map Char.toNat)
    (("<".toList).map Char.toNat) (by decide) (by decide) (by decide)

/-- An unrecognized reference makes the ampersand branch emit a literal `&`
and keep the rest unconsumed. -/
theorem ampStep_malformed (rest : List Nat) (hmal : recognizedRef rest = false) :
    ampStep rest = ([0x26], rest) := by
  simp only [recognizedRef, Bool.or_eq_false_iff] at hmal
  obtain ⟨⟨⟨⟨⟨hlt, hgt⟩, hamp⟩, hquot⟩, hhex⟩, hdec⟩ := hmal
  rw [ampStep]
  simp only [hlt, hgt, hamp, hquot, Bool.false_eq_true, if_false]
  cases hpx : ([0x23, 0x78].isPrefixOf rest || [0x23, 0x58].isPrefixOf rest) with
  | true =>
    rw [hpx] at hhex
    simp only [Bool.true_and] at hhex
    have hn : numRef 16 3 rest = none := by
      cases h : numRef 16 3 rest
      · rfl
      · rw [h] at hhex; simp at hhex
    simp [hn]
  | false =>
    rw [hpx] at hdec
    simp only [Bool.not_false, Bool.true_and] at hdec
    cases hp1 : ([0x23] : List Nat).isPrefixOf rest with
    | false => simp [hp1]
    | true =>
      rw [hp1] at hdec
      simp only [Bool.true_and] at hdec
      have hn : numRef 10 2 rest = none := by
        cases h : numRef 10 2 rest
        · rfl
        · rw [h] at hdec; simp at hdec
      simp [hp1, hn]

/-- Claim C8: at an ampersand that starts no recognized reference — no
named entity, and no numeric reference with a terminating semicolon, valid
digits and a valid scalar value — the decoder emits a literal `&` and
resumes scanning at the very next character, so the remaining characters
of the malformed reference are re-scanned rather than skipped.  (The
hypothesis on `rest.head?` excludes the multi-byte boundary panic of C1.) -/
theorem c8_malformed_amp_literal (fuel : Nat) (rest : List Nat)
    (hmal : recognizedRef rest = false)
    (hb : (match rest.head? with | some r => contByte r | none => false) = false) :
    unescapeGo (fuel + 1) (0x26 :: rest)
      = (unescapeGo fuel rest).map (fun t => 0x26 :: t) := by
  rw [unescapeGo]
  rw [if_neg (show ¬(contByte 0x26 = true) by decide)]
  rw [if_neg (show ¬((match rest.head? with
    | some r => contByte r | none => false) = true) by simp [hb])]
  simp only [if_pos rfl, ampStep_malformed rest hmal]
  rfl

/-- Witness for C8 at the malformed reference `&#-0;x`: the unsigned parse
rejects the leading `-` as an invalid digit, so the `&` is emitted
literally and `#-0;x` is re-scanned. -/
theorem c8_malformed_amp_literal_w :
    unescapeGo 6 (0x26 :: ("#-0;x".toList).map Char.toNat)
      = (unescapeGo 5 (("#-0;x".toList).map Char.toNat)).map (fun t => 0x26 :: t) :=
  c8_malformed_amp_literal 5 (("#-0;x".toList).map Char.toNat) (by decide) (by decide)

/-! ## Helper lemmas: list prefixes -/

/-- `isPrefixOf` as an append decomposition. -/
theorem isPrefixOf_ex {α : Type} [DecidableEq α] : ∀ {l s : List α},
    l.isPrefixOf s = true ↔ ∃ r, s = l ++ r := by
  intro l
  induction l with
  | nil => intro s; simp [List.isPrefixOf]
  | cons a l ih =>
    intro s
    cases s with
    | nil => simp [List.isPrefixOf]
    | cons b t =>
      show (a == b && l.isPrefixOf t) = true ↔ _
      rw [Bool.and_eq_true, beq_iff_eq, ih]
      constructor
      · rintro ⟨hab, r, hr⟩
        exact ⟨r, by rw [List.cons_append, ← hab, ← hr]⟩
      · rintro ⟨r, hr⟩
        rw [List.cons_append] at hr
        injection hr with h1 h2
        exact ⟨h1.symm, r, h2⟩

/-! ## Helper lemmas: the class-attribute regexes -/

/-- The `+` variant never captures an empty value. -/
theorem classAttrAt_plus_ne_nil {q : Char} {s : List Char} {len : Nat} {v : List Char}
    (h : classAttrAt q true s = some (len, v)) : v ≠ [] := by
  rw [classAttrAt] at h
  split at h
  · exact absurd h (by simp)
  · split at h
    · exact absurd h (by simp)
    · rename_i hcond
      split at h
      · rename_i c t hm
        split at h
        · simp only [Option.some.injEq, Prod.mk.injEq] at h
          obtain ⟨-, hv⟩ := h
          subst hv
          intro hnil
          exact hcond (by rw [hnil]; rfl)
        · exact absurd h (by simp)
      · exact absurd h (by simp)

/-- `findClass` with the `+` variant never returns an empty value. -/
theorem findClass_plus_ne_nil {q : Char} : ∀ {s : List Char} {p len : Nat} {v : List Char},
    findClass q true s = some (p, len, v) → v ≠ [] := by
  intro s
  induction s with
  | nil => intro p len v h; exact absurd h (by simp [findClass])
  | cons c rest ih =>
    intro p len v h
    rw [findClass] at h
    cases ha : classAttrAt q true (c :: rest) with
    | some r =>
      rw [ha] at h
      simp only [Option.some.injEq, Prod.mk.injEq] at h
      obtain ⟨-, -, hv⟩ := h
      exact hv ▸ classAttrAt_plus_ne_nil (by rw [ha])
    | none =>
      rw [ha] at h
      simp only [Option.map_eq_some'] at h
      obtain ⟨r, hr, he⟩ := h
      have : v = r.2.2 := by
        have := congrArg Prod.snd (congrArg Prod.snd he)
        simpa using this.symm
      exact this ▸ @ih r.1 r.2.1 r.2.2 (by simpa using hr)

/-! ## Claim theorems: C9, C4, C10, C2 -/

/-- Claim C9: `extract_class_attr` never returns `Some` of the empty
string — its regexes use `([^"]+)` — so an empty-valued class attribute
such as `class=""` is reported as absent and cannot contribute tokens to
language resolution, even though the merge regexes (which use `([^"]*)`)
do match such an attribute. -/
theorem c9_extract_nonempty :
    (∀ attrs v, extract_class_attr attrs = some v → v ≠ []) ∧
      extract_class_attr ("class=\"\"".toList) = none ∧
      (findClass dq false ("class=\"\"".toList)).isSome = true := by
  refine ⟨?_, by decide, by decide⟩
  intro attrs v h
  rw [extract_class_attr] at h
  cases h1 : findClass dq true attrs with
  | some r =>
    rw [h1] at h
    have hv : v = r.2.2 := by
      obtain ⟨p, len, w⟩ := r
      simpa using h.symm
    exact hv ▸ findClass_plus_ne_nil (by rw [h1])
  | none =>
    rw [h1] at h
    cases h2 : findClass sq true attrs with
    | some r =>
      rw [h2] at h
      have hv : v = r.2.2 := by
        obtain ⟨p, len, w⟩ := r
        simpa using h.symm
      exact hv ▸ findClass_plus_ne_nil (by rw [h2])
    | none => rw [h2] at h; exact absurd h (by simp)

/-- Witness for C9 at ` class="x"`. -/
theorem c9_extract_nonempty_w : ("x".toList) ≠ ([] : List Char) :=
  c9_extract_nonempty.1 (" class=\"x\"".toList) ("x".toList) (by decide)

/-- The token loop is `List.find?` of registry membership. -/
theorem firstRegistered_eq_find (ts : List (List Char)) :
    firstRegistered ts = ts.find? (fun t => containsKey t) := by
  induction ts with
  | nil => rfl
  | cons t ts ih =>
    rw [firstRegistered, List.find?_cons]
    cases h : containsKey t with
    | true => simp [h]
    | false => simp [h, ih]

/-- Claim C4: language resolution is two-tiered — the first whitespace-split
token of the code tag's extracted class value that is a registry key wins;
only if none matches is the same search repeated on the pre tag's class
value; if neither yields a match, no language is resolved. -/
theorem c4_two_tier_resolution (code_attrs pre_attrs : List Char) :
    resolveLang code_attrs pre_attrs = resolveSpec code_attrs pre_attrs := by
  rw [resolveLang, resolveSpec, classTokens, classTokens]
  cases hc : extract_class_attr code_attrs <;>
    cases hp : extract_class_attr pre_attrs <;>
      simp only [firstRegistered_eq_find] <;> rfl

/-- All-failing tokens resolve to nothing. -/
theorem firstRegistered_none (ts : List (List Char))
    (h : ∀ t ∈ ts, containsKey t = false) : firstRegistered ts = none := by
  induction ts with
  | nil => rfl
  | cons t ts ih =>
    rw [firstRegistered, h t (by simp)]
    exact ih (fun x hx => h x (by simp [hx]))

/-- Claim C10: the supported language registry has exactly the five keys
`rust`, `javascript`, `html`, `css`, `python`; when every class token of
the code tag and of the pre tag lies outside this set, language resolution
returns absence and the block is left unchanged. -/
theorem c10_registry_five_keys :
    language_map_keys = ["rust".toList, "javascript".toList, "html".toList,
        "css".toList, "python".toList] ∧
    ∀ code_attrs pre_attrs,
      (∀ t ∈ classTokens code_attrs, containsKey t = false) →
      (∀ t ∈ classTokens pre_attrs, containsKey t = false) →
      resolveLang code_attrs pre_attrs = none ∧
      ∀ engine code full, processBlock engine pre_attrs code_attrs code full = some full := by
  refine ⟨rfl, ?_⟩
  intro code_attrs pre_attrs h1 h2
  have hres : resolveLang code_attrs pre_attrs = none := by
    rw [resolveLang]
    cases hc : extract_class_attr code_attrs with
    | some cc =>
      have hcc : firstRegistered (splitWs cc) = none :=
        firstRegistered_none _ (fun t ht => h1 t (by rw [classTokens, hc]; exact ht))
      cases hp : extract_class_attr pre_attrs with
      | some pc =>
        have hpc : firstRegistered (splitWs pc) = none :=
          firstRegistered_none _ (fun t ht => h2 t (by rw [classTokens, hp]; exact ht))
        simp [hcc, hpc]
      | none => simp [hcc]
    | none =>
      cases hp : extract_class_attr pre_attrs with
      | some pc =>
        have hpc : firstRegistered (splitWs pc) = none :=
          firstRegistered_none _ (fun t ht => h2 t (by rw [classTokens, hp]; exact ht))
        simp [hpc]
      | none => rfl
  refine ⟨hres, fun engine code full => ?_⟩
  rw [processBlock, hres]

/-- Witness for C10: a `cobol` code class and a plain pre tag resolve no
language and the block is passed through. -/
theorem c10_registry_five_keys_w :
    resolveLang (" class=\"cobol\"".toList) ([] : List Char) = none ∧
      ∀ engine code full,
        processBlock engine ([] : List Char) (" class=\"cobol\"".toList) code full
          = some full :=
  c10_registry_five_keys.2 (" class=\"cobol\"".toList) [] (by decide) (by decide)

/-! ## Claim theorem: C2 -/

/-- A document with no match anywhere is scanned straight through. -/
theorem highlightGo_no_match (engine : List Char → List Nat → Option (List Char)) :
    ∀ (s : List Char) (fuel : Nat), s.length ≤ fuel →
    (∀ i, matchBlockAt (s.drop i) = none) → highlightGo engine fuel s = some s := by
  intro s
  induction s with
  | nil => intro fuel _ _; cases fuel <;> rfl
  | cons c rest ih =>
    intro fuel hf hm
    match fuel with
    | 0 => simp at hf
    | f + 1 =>
      rw [highlightGo]
      have h0 := hm 0
      rw [List.drop_zero] at h0
      rw [h0]
      rw [ih f (by simpa using hf)
        (fun i => by have := hm (i + 1); rwa [List.drop_succ_cons] at this)]
      rfl

/-- Claim C2: a document containing no span matching the
`<pre …><code …>…</code></pre>` pattern is returned unchanged by the
rewriter. -/
theorem c2_no_blocks_identity (engine : List Char → List Nat → Option (List Char))
    (doc : List Char) (h : ∀ i, matchBlockAt (doc.drop i) = none) :
    highlight_html engine doc = some doc :=
  highlightGo_no_match engine doc doc.length le_rfl h

/-- Witness for C2 on the block-free document `hello`. -/
theorem c2_no_blocks_identity_w :
    highlight_html (fun _ _ => none) ("hello".toList) = some ("hello".toList) :=
  c2_no_blocks_identity _ _ (by
    intro i
    rcases i with _ | _ | _ | _ | _ | _ | n
    · decide
    · decide
    · decide
    · decide
    · decide
    · decide
    · rw [List.drop_eq_nil_of_le (by simp)]
      decide)

/-! ## Helper lemmas: the block matcher and scan -/

/-- A successful closing pattern fits inside the string and is non-empty. -/
theorem closeLen_le {s : List Char} {m : Nat} (h : closeLen s = some m) :
    1 ≤ m ∧ m ≤ s.length := by
  rw [closeLen] at h
  simp only [] at h
  split at h
  · rename_i hpre
    obtain ⟨r, hr⟩ := isPrefixOf_ex.mp hpre
    split at h
    · rename_i hpre2
      obtain ⟨r2, hr2⟩ := isPrefixOf_ex.mp hpre2
      injection h with h
      subst h
      have hlsplit := congrArg List.length (List.takeWhile_append_dropWhile isWs (s.drop 7))
      have hlr2 := congrArg List.length hr2
      have hlr := congrArg List.length hr
      have h7 : ("</code>".toList).length = 7 := by decide
      have h6 : ("</pre>".toList).length = 6 := by decide
      simp only [List.length_append, List.length_drop] at hlsplit hlr2 hlr
      omega
    · exact absurd h (by simp)
  · exact absurd h (by simp)

/-- A successful close search fits inside the string. -/
theorem findClose_le : ∀ {s : List Char} {k m : Nat},
    findClose s = some (k, m) → k + m ≤ s.length := by
  intro s
  induction s with
  | nil => intro k m h; exact absurd h (by simp [findClose])
  | cons c rest ih =>
    intro k m h
    rw [findClose] at h
    cases hc : closeLen (c :: rest) with
    | some m0 =>
      rw [hc] at h
      have hle := (closeLen_le hc).2
      simp only [Option.some.injEq, Prod.mk.injEq] at h
      obtain ⟨h1, h2⟩ := h
      simp only [List.length_cons] at hle ⊢
      omega
    | none =>
      rw [hc] at h
      simp only [Option.map_eq_some'] at h
      obtain ⟨⟨k0, m0⟩, hr, he⟩ := h
      have := ih hr
      simp only [Prod.mk.injEq] at he
      obtain ⟨h1, h2⟩ := he
      simp only [List.length_cons] at *
      omega

/-- A successful block match is non-empty and fits inside the string. -/
theorem matchBlockAt_len {s pa ca code : List Char} {len : Nat}
    (h : matchBlockAt s = some (pa, ca, code, len)) : 1 ≤ len ∧ len ≤ s.length := by
  rw [matchBlockAt] at h
  simp only [] at h
  split at h
  · rename_i hpre
    obtain ⟨r4, hr4⟩ := isPrefixOf_ex.mp hpre
    split at h
    · rename_i c t2 heq
      split at h
      · rename_i hgt
        split at h
        · rename_i hcode
          obtain ⟨r5, hr5⟩ := isPrefixOf_ex.mp hcode
          split at h
          · rename_i d t5 heq2
            split at h
            · rename_i hgt2
              split at h
              · rename_i k m hfc
                simp only [Option.some.injEq, Prod.mk.injEq] at h
                obtain ⟨-, -, -, hlen⟩ := h
                have hkm := findClose_le hfc
                have e1 := List.takeWhile_append_dropWhile
                  (fun c => decide (c ≠ '>')) (s.drop 4)
                rw [heq] at e1
                have e2 := List.takeWhile_append_dropWhile isWs t2
                have e3 := congrArg List.length hr5
                have h5 : ("<code".toList).length = 5 := by decide
                simp only [List.length_append] at e3
                have e5 := List.takeWhile_append_dropWhile
                  (fun c => decide (c ≠ '>')) ((t2.dropWhile isWs).drop 5)
                rw [heq2] at e5
                have l1 := congrArg List.length hr4
                have l2 := congrArg List.length e1
                have l3 := congrArg List.length e2
                have l5 := congrArg List.length e5
                simp only [List.length_append, List.length_cons, List.length_drop] at l1 l2 l3 l5
                simp only [List.length_drop] at hkm
                omega
              · exact absurd h (by simp)
            · exact absurd h (by simp)
          · exact absurd h (by simp)
        · exact absurd h (by simp)
      · exact absurd h (by simp)
    · exact absurd h (by simp)
  · exact absurd h (by simp)

/-- The scan result does not depend on the fuel, provided there is enough. -/
theorem highlightGo_fuel (engine : List Char → List Nat → Option (List Char)) :
    ∀ f1 (s : List Char) (f2 : Nat), s.length ≤ f1 → s.length ≤ f2 →
    highlightGo engine f1 s = highlightGo engine f2 s := by
  intro f1
  induction f1 with
  | zero =>
    intro s f2 h1 _
    have : s = [] := List.eq_nil_of_length_eq_zero (Nat.le_zero.mp h1)
    subst this
    cases f2 <;> rfl
  | succ f ih =>
    intro s f2 h1 h2
    cases s with
    | nil => cases f2 <;> rfl
    | cons c rest =>
      cases f2 with
      | zero => simp at h2
      | succ f2 =>
        rw [highlightGo, highlightGo]
        cases hm : matchBlockAt (c :: rest) with
        | none =>
          rw [ih rest f2 (by simpa using h1) (by simpa using h2)]
        | some r =>
          obtain ⟨pa, ca, code, len⟩ := r
          have hlen := matchBlockAt_len hm
          simp only [ih ((c :: rest).drop len) f2
            (by have := hlen.1
                simp only [List.length_drop, List.length_cons]
                simp only [List.length_cons] at h1
                omega)
            (by have := hlen.1
                simp only [List.length_drop, List.length_cons]
                simp only [List.length_cons] at h2
                omega)]

/-- The replacement closure copies the span through verbatim when no
language resolves, or when decoding succeeds and the engine fails. -/
theorem processBlock_passthrough (engine : List Char → List Nat → Option (List Char))
    (pa ca code full : List Char)
    (hcond : resolveLang ca pa = none ∨
      ∃ lang d, resolveLang ca pa = some lang ∧
        html_unescape (utf8Bytes code) = some d ∧ engine lang d = none) :
    processBlock engine pa ca code full = some full := by
  rw [processBlock]
  rcases hcond with h | ⟨lang, d, h1, h2, h3⟩
  · rw [h]
  · simp only [h1, h2, h3]

/-! ## Claim theorems: C3 -/

/-- Claim C3 counterexample: the claim promises that when the engine fails
the original span is copied through and the rest of the document is still
processed; but on a block whose body contains a multi-byte character the
pipeline decodes the body *before* consulting the engine and the decoder
panics (the C1 slip), so there is no output at all. -/
theorem c3_counterexample :
    highlight_html (fun _ _ => none)
      ("<pre><code class=\"rust\">é</code></pre>".toList) = none := by decide

/-- Claim C3 (amended): for the first matched block of a document, if no
class token of the code or pre tag names a registered language, or the body
decodes without panic and the engine fails on it, then the output contains
the original matched span byte-for-byte and the rest of the document is
still processed by the same scan. -/
theorem c3_failed_block_verbatim (engine : List Char → List Nat → Option (List Char))
    (p tail pa ca code : List Char) (len : Nat)
    (hnm : ∀ i, i < p.length → matchBlockAt ((p ++ tail).drop i) = none)
    (hm : matchBlockAt tail = some (pa, ca, code, len))
    (hcond : resolveLang ca pa = none ∨
      ∃ lang d, resolveLang ca pa = some lang ∧
        html_unescape (utf8Bytes code) = some d ∧ engine lang d = none) :
    highlight_html engine (p ++ tail)
      = (highlight_html engine (tail.drop len)).map
          (fun out => p ++ tail.take len ++ out) := by
  revert hnm
  induction p with
  | nil =>
    intro hnm
    simp only [List.nil_append]
    cases tail with
    | nil =>
      rw [show matchBlockAt ([] : List Char) = none from rfl] at hm
      exact absurd hm (by simp)
    | cons c rest =>
      rw [highlight_html]
      simp only [List.length_cons]
      rw [highlightGo, hm]
      simp only [processBlock_passthrough engine pa ca code ((c :: rest).take len) hcond]
      rw [highlight_html]
      rw [highlightGo_fuel engine rest.length ((c :: rest).drop len) ((c :: rest).drop len).length
        (by have := (matchBlockAt_len hm).1
            simp only [List.length_drop, List.length_cons]
            omega)
        le_rfl]
  | cons c p ih =>
    intro hnm
    simp only [List.cons_append]
    rw [highlight_html]
    simp only [List.length_cons]
    rw [highlightGo]
    have h0 := hnm 0 (by simp)
    rw [List.cons_append, List.drop_zero] at h0
    rw [h0]
    rw [show highlightGo engine (p ++ tail).length (p ++ tail)
        = highlight_html engine (p ++ tail) from rfl]
    rw [ih (fun i hi => by
      have := hnm (i + 1) (by simp only [List.length_cons]; omega)
      rwa [List.cons_append, List.drop_succ_cons] at this)]
    cases highlight_html engine (tail.drop len) <;> simp

/-- Witness for C3 (amended): a failing engine on
`ab<pre><code class="rust">fn</code></pre>ok` copies the block through and
the suffix is still scanned. -/
theorem c3_failed_block_verbatim_w :
    highlight_html (fun _ _ => none)
        ("ab".toList ++ "<pre><code class=\"rust\">fn</code></pre>ok".toList)
      = (highlight_html (fun _ _ => none)
            (("<pre><code class=\"rust\">fn</code></pre>ok".toList).drop 39)).map
          (fun out => "ab".toList
            ++ ("<pre><code class=\"rust\">fn</code></pre>ok".toList).take 39 ++ out) :=
  c3_failed_block_verbatim (fun _ _ => none) ("ab".toList)
    ("<pre><code class=\"rust\">fn</code></pre>ok".toList)
    ([] : List Char) (" class=\"rust\"".toList) ("fn".toList) 39
    (by intro i hi
        rcases i with _ | _ | n
        · decide
        · decide
        · exact absurd hi (by
            have h2 : ("ab".toList).length = 2 := by decide
            omega))
    (by decide)
    (Or.inr ⟨"rust".toList, [0x66, 0x6E], by decide, by decide, rfl⟩)

/-! ## Helper lemmas: whitespace trimming and normalization -/

/-- `dropWhile` empties out exactly on an all-satisfying list. -/
theorem dropWhile_nil_iff {α : Type} (p : α → Bool) : ∀ (l : List α),
    l.dropWhile p = [] ↔ ∀ c ∈ l, p c = true := by
  intro l
  induction l with
  | nil => simp
  | cons c rest ih =>
    rw [List.dropWhile_cons]
    cases hc : p c with
    | true => simp [hc, ih]
    | false =>
      simp only [Bool.false_eq_true, if_false]
      constructor
      · intro h; exact absurd h (by simp)
      · intro h; exact absurd (h c (by simp)) (by simp [hc])

/-- The head surviving `dropWhile` fails the predicate. -/
theorem dropWhile_head_false {α : Type} (p : α → Bool) : ∀ {l : List α} {c : α} {t : List α},
    l.dropWhile p = c :: t → p c = false := by
  intro l
  induction l with
  | nil => intro c t h; exact absurd h (by simp)
  | cons a rest ih =>
    intro c t h
    rw [List.dropWhile_cons] at h
    cases ha : p a with
    | true => rw [ha] at h; simp only [if_pos rfl] at h; exact ih h
    | false =>
      rw [ha] at h
      simp only [Bool.false_eq_true, if_false] at h
      injection h with h1 _
      rw [← h1]; exact ha

/-- `trimWs` empties out exactly on all-whitespace text. -/
theorem trimWs_nil_iff (s : List Char) :
    trimWs s = [] ↔ ∀ c ∈ s, isWs c = true := by
  rw [trimWs]
  constructor
  · intro h hc
    have h1 : (s.dropWhile isWs).reverse.dropWhile isWs = [] := by
      cases he : (s.dropWhile isWs).reverse.dropWhile isWs with
      | nil => rfl
      | cons a b => rw [he] at h; exact absurd h (by simp)
    have h2 : ∀ c ∈ (s.dropWhile isWs).reverse, isWs c = true :=
      (dropWhile_nil_iff isWs _).mp h1
    have h3 : s.dropWhile isWs = [] := by
      cases he : s.dropWhile isWs with
      | nil => rfl
      | cons a b =>
        have ha := dropWhile_head_false isWs he
        have : isWs a = true := h2 a (by rw [he]; simp)
        rw [ha] at this
        exact absurd this (by simp)
    intro hmem
    exact (dropWhile_nil_iff isWs s).mp h3 hc hmem
  · intro h
    rw [(dropWhile_nil_iff isWs s).mpr h]
    rfl

/-- A single non-whitespace character keeps the trim non-empty. -/
theorem trimWs_ne_nil {s : List Char} {c : Char} (hc : c ∈ s) (hw : isWs c = false) :
    trimWs s ≠ [] := by
  intro h
  have := (trimWs_nil_iff s).mp h c hc
  rw [hw] at this
  exact absurd this (by simp)

/-- The final normalization returns the empty string or a string starting
with a space. -/
theorem attrsNorm_shape (u : List Char) :
    attrsNorm u = [] ∨ ∃ v, attrsNorm u = ' ' :: v := by
  rw [attrsNorm.eq_def]
  split
  · exact Or.inl rfl
  · cases u with
    | nil => exact Or.inl rfl
    | cons ch tl =>
      by_cases hc : ch = ' '
      · subst hc; exact Or.inr ⟨tl, rfl⟩
      · exact Or.inr ⟨ch :: tl, by simp only [if_neg hc]⟩

/-- No class-attribute match exists in all-whitespace text (the pattern
needs the literal `class`). -/
theorem findClass_ws_none (q : Char) (plus : Bool) : ∀ (s : List Char),
    (∀ c ∈ s, isWs c = true) → findClass q plus s = none := by
  intro s
  induction s with
  | nil => intro _; rfl
  | cons c rest ih =>
    intro h
    rw [findClass]
    have hk : classKeyAt q (c :: rest) = none := by
      rw [classKeyAt]
      rw [if_neg]
      intro hp
      obtain ⟨r, hr⟩ := isPrefixOf_ex.mp hp
      have hc : c = 'c' := by injection hr
      have := h c (by simp)
      rw [hc] at this
      exact absurd this (by decide)
    have ha : classAttrAt q plus (c :: rest) = none := by
      rw [classAttrAt, hk]
    rw [ha, ih (fun x hx => h x (List.mem_cons_of_mem c hx))]
    rfl

/-! ## Claim theorems: C6 -/

/-- Claim C6 counterexample: on the attribute string `␣␣id="x"` (two
leading spaces) the merge result keeps both leading spaces — the
normalization only prepends a space when none is present, it never
collapses existing ones, so "exactly one leading space" fails. -/
theorem c6_counterexample :
    update_or_add_class ("  id=\"x\"".toList) ("sourceCode".toList) none
        = "  id=\"x\" class=\"sourceCode\"".toList ∧
      ("  id=\"x\" class=\"sourceCode\"".toList).take 2 = [' ', ' '] :=
  ⟨by decide, by decide⟩

/-- Claim C6 (amended): with a non-empty combined class set, an attribute
string that trims to empty yields exactly one leading space followed by
`class="…"` with the new tokens; and in all cases the result is either
empty or begins with a space (one is prepended only when the input result
does not already start with one; pre-existing leading whitespace is kept). -/
theorem c6_normalized_output (attrs add_classes : List Char) (add_lang : Option (List Char))
    (hne : combinedOf add_classes add_lang ≠ []) :
    (trimWs attrs = [] →
      update_or_add_class attrs add_classes add_lang
        = ' ' :: "class=\"".toList ++ combinedOf add_classes add_lang ++ [dq]) ∧
    (update_or_add_class attrs add_classes add_lang = [] ∨
      ∃ v, update_or_add_class attrs add_classes add_lang = ' ' :: v) := by
  constructor
  · intro htrim
    have hws : ∀ c ∈ attrs, isWs c = true := (trimWs_nil_iff attrs).mp htrim
    have hdq : findClass dq false attrs = none := findClass_ws_none dq false attrs hws
    have hsq : findClass sq false attrs = none := findClass_ws_none sq false attrs hws
    have hE : (combinedOf add_classes add_lang).isEmpty = false := by
      cases h : combinedOf add_classes add_lang with
      | nil => exact absurd h hne
      | cons a b => rfl
    have hT : (trimWs attrs).isEmpty = true := by rw [htrim]; rfl
    rw [update_or_add_class]
    simp only [hdq, hsq, hE, hT, Bool.false_eq_true, if_false, eq_self_iff_true, if_true]
    have hmem : 'c' ∈ (' ' :: "class=\"".toList ++ combinedOf add_classes add_lang ++ [dq]) := by
      simp only [List.cons_append, List.mem_cons, List.mem_append]
      right; left; left; decide
    rw [attrsNorm.eq_def]
    rw [if_neg (by
      intro hEmp
      have : trimWs (' ' :: "class=\"".toList
          ++ combinedOf add_classes add_lang ++ [dq]) = [] := by
        cases he : trimWs (' ' :: "class=\"".toList
            ++ combinedOf add_classes add_lang ++ [dq]) with
        | nil => rfl
        | cons a b => rw [he] at hEmp; exact absurd hEmp (by simp)
      exact trimWs_ne_nil hmem (by decide) this)]
    rfl
  · exact attrsNorm_shape _

/-! ## Helper lemmas: tokens, joining and splitting -/

/-- A well-formed class token: non-empty, no whitespace, no double quote,
no `$` (which the replacement interpolation would expand). -/
def SafeToken (t : List Char) : Prop :=
  t ≠ [] ∧ ∀ c ∈ t, isWs c = false ∧ c ≠ dq ∧ c ≠ '$'

/-- Unfolding `joinSp` on a list with at least two tokens. -/
theorem joinSp_cons {t : List Char} {ts : List (List Char)} (h : ts ≠ []) :
    joinSp (t :: ts) = t ++ ' ' :: joinSp ts := by
  cases ts with
  | nil => exact absurd rfl h
  | cons a b => rfl

/-- Joining non-empty tokens is non-empty. -/
theorem joinSp_ne_nil : ∀ {ts : List (List Char)}, ts ≠ [] → (∀ t ∈ ts, t ≠ []) →
    joinSp ts ≠ [] := by
  intro ts hne htok
  cases ts with
  | nil => exact absurd rfl hne
  | cons t rest =>
    cases rest with
    | nil => exact htok t (by simp)
    | cons a b =>
      rw [joinSp_cons (by simp)]
      intro h
      rw [List.append_eq_nil] at h
      exact absurd h.2 (by simp)

/-- Appending one token to a non-empty join. -/
theorem joinSp_append_single : ∀ (ts : List (List Char)) (l : List Char), ts ≠ [] →
    joinSp (ts ++ [l]) = joinSp ts ++ ' ' :: l := by
  intro ts
  induction ts with
  | nil => intro l h; exact absurd rfl h
  | cons t rest ih =>
    intro l _
    cases rest with
    | nil => rfl
    | cons a b =>
      rw [List.cons_append, joinSp_cons (by simp), joinSp_cons (by simp),
        ih l (by simp)]
      simp

/-- Characters of a join are spaces or token characters. -/
theorem mem_joinSp : ∀ {ts : List (List Char)} {c : Char}, c ∈ joinSp ts →
    c = ' ' ∨ ∃ t ∈ ts, c ∈ t := by
  intro ts
  induction ts with
  | nil => intro c h; exact absurd h (by simp [joinSp])
  | cons t rest ih =>
    intro c h
    cases rest with
    | nil => exact Or.inr ⟨t, by simp, h⟩
    | cons a b =>
      rw [joinSp_cons (by simp)] at h
      rcases List.mem_append.mp h with h1 | h2
      · exact Or.inr ⟨t, by simp, h1⟩
      · rcases List.mem_cons.mp h2 with h3 | h4
        · exact Or.inl h3
        · rcases ih h4 with h5 | ⟨u, hu, hcu⟩
          · exact Or.inl h5
          · exact Or.inr ⟨u, List.mem_cons_of_mem t hu, hcu⟩

/-- The splitter consumes a whitespace-free token wholesale. -/
theorem splitWsAux_token : ∀ (t : List Char), (∀ c ∈ t, isWs c = false) →
    ∀ (rest acc : List Char), splitWsAux (t ++ rest) acc = splitWsAux rest (t.reverse ++ acc) := by
  intro t
  induction t with
  | nil => intro _ rest acc; simp
  | cons c t ih =>
    intro h rest acc
    rw [List.cons_append, splitWsAux]
    rw [if_neg (by simp [h c (by simp)])]
    rw [ih (fun x hx => h x (by simp [hx])) rest (c :: acc)]
    congr 1
    simp

/-- The splitter on a leading space flushes the accumulator. -/
theorem splitWsAux_space (rest acc : List Char) :
    splitWsAux (' ' :: rest) acc
      = if acc.isEmpty then splitWsAux rest [] else acc.reverse :: splitWsAux rest [] := by
  rw [splitWsAux, if_pos (by decide)]

/-- Splitting a single-space join of well-formed tokens recovers the
tokens. -/
theorem splitWs_join : ∀ (ts : List (List Char)), ts ≠ [] →
    (∀ t ∈ ts, t ≠ [] ∧ ∀ c ∈ t, isWs c = false) → splitWs (joinSp ts) = ts := by
  intro ts
  induction ts with
  | nil => intro h _; exact absurd rfl h
  | cons t rest ih =>
    intro _ htok
    have hrev : t.reverse.isEmpty = false := by
      cases hh : t.reverse with
      | nil => exact absurd (by simpa using congrArg List.reverse hh) (htok t (by simp)).1
      | cons x y => rfl
    cases rest with
    | nil =>
      show splitWsAux t [] = [t]
      have h0 := splitWsAux_token t (htok t (by simp)).2 [] []
      rw [List.append_nil, List.append_nil] at h0
      rw [h0, splitWsAux, hrev]
      simp
    | cons a b =>
      show splitWsAux (joinSp (t :: a :: b)) [] = _
      rw [joinSp_cons (by simp),
        splitWsAux_token t (htok t (by simp)).2 (' ' :: joinSp (a :: b)) [],
        List.append_nil, splitWsAux_space, hrev]
      simp only [Bool.false_eq_true, if_false, List.reverse_reverse]
      congr 1
      exact ih (by simp) (fun u hu => htok u (List.mem_cons_of_mem t hu))

/-- Adding already-present tokens changes nothing. -/
theorem pushMissing_of_subset : ∀ (new parts : List (List Char)),
    (∀ t ∈ new, t ∈ parts) → pushMissing parts new = parts := by
  intro new
  induction new with
  | nil => intro parts _; rfl
  | cons t ts ih =>
    intro parts h
    rw [pushMissing, if_pos (by simpa using h t (by simp))]
    exact ih parts (fun x hx => h x (List.mem_cons_of_mem t hx))

/-- Interpolation is the identity on `$`-free templates. -/
theorem expandGo_no_dollar (m0 m1 : List Char) : ∀ (t : List Char) (fuel : Nat),
    t.length ≤ fuel → ('$' ∉ t) → expandGo m0 m1 fuel t = t := by
  intro t
  induction t with
  | nil => intro fuel _ _; cases fuel <;> rfl
  | cons c rest ih =>
    intro fuel hf hd
    match fuel with
    | 0 => simp at hf
    | f + 1 =>
      rw [expandGo.eq_def]
      simp only []
      rw [if_neg (fun hc => hd (by rw [hc]; exact List.mem_cons_self _ _))]
      rw [ih f (by simpa using hf) (fun hm => hd (List.mem_cons_of_mem c hm))]

/-- Interpolation is the identity on `$`-free templates. -/
theorem expand_no_dollar (m0 m1 t : List Char) (h : '$' ∉ t) : expand m0 m1 t = t :=
  expandGo_no_dollar m0 m1 t t.length le_rfl h

/-! ## Helper lemmas: structure of class-attribute matches -/

/-- A successful `class\s*=\s*<q>` parse decomposes the string. -/
theorem classKeyAt_decomp {q : Char} {s : List Char} {n : Nat}
    (h : classKeyAt q s = some n) :
    ∃ w1 w2 rest, (∀ c ∈ w1, isWs c = true) ∧ (∀ c ∈ w2, isWs c = true) ∧
      s = "class".toList ++ w1 ++ '=' :: w2 ++ q :: rest := by
  rw [classKeyAt] at h
  simp only [] at h
  split at h
  · rename_i hpre
    obtain ⟨r, hr⟩ := isPrefixOf_ex.mp hpre
    have hd5 : s.drop 5 = r := by rw [hr]; exact List.drop_left' (by decide)
    rw [hd5] at h
    split at h
    · rename_i t3 heq
      split at h
      · rename_i c rest2 heq2
        split at h
        · rename_i hcq
          refine ⟨r.takeWhile isWs, t3.takeWhile isWs, rest2,
            fun c hc => List.mem_takeWhile_imp hc,
            fun c hc => List.mem_takeWhile_imp hc, ?_⟩
          have hrw : r = r.takeWhile isWs ++ '=' :: (t3.takeWhile isWs ++ (q :: rest2)) := by
            calc r = r.takeWhile isWs ++ r.dropWhile isWs :=
                  (List.takeWhile_append_dropWhile isWs r).symm
              _ = r.takeWhile isWs ++ ('=' :: t3) := by rw [heq]
              _ = r.takeWhile isWs ++ '=' :: (t3.takeWhile isWs ++ t3.dropWhile isWs) := by
                  rw [List.takeWhile_append_dropWhile]
              _ = r.takeWhile isWs ++ '=' :: (t3.takeWhile isWs ++ (c :: rest2)) := by rw [heq2]
              _ = r.takeWhile isWs ++ '=' :: (t3.takeWhile isWs ++ (q :: rest2)) := by rw [hcq]
          rw [hr]
          nth_rewrite 1 [hrw]
          simp
        · exact absurd h (by simp)
      · exact absurd h (by simp)
    · exact absurd h (by simp)
  · exact absurd h (by simp)

/-- No class-attribute match exists when the quote character is absent. -/
theorem findClass_not_mem {q : Char} (plus : Bool) : ∀ (s : List Char), q ∉ s →
    findClass q plus s = none := by
  intro s
  induction s with
  | nil => intro _; rfl
  | cons c rest ih =>
    intro h
    rw [findClass]
    have hk : classKeyAt q (c :: rest) = none := by
      cases hkk : classKeyAt q (c :: rest) with
      | none => rfl
      | some n =>
        obtain ⟨w1, w2, r2, -, -, he⟩ := classKeyAt_decomp hkk
        exact absurd (show q ∈ c :: rest by rw [he]; simp) h
    have ha : classAttrAt q plus (c :: rest) = none := by rw [classAttrAt, hk]
    rw [ha, ih (fun hm => h (List.mem_cons_of_mem c hm))]
    rfl

/-- Two decompositions at the first occurrence of a character agree. -/
theorem first_occ_unique {α : Type} [DecidableEq α] {x : α} : ∀ {P Q r1 r2 : List α},
    P ++ x :: r1 = Q ++ x :: r2 → x ∉ P → x ∉ Q → P = Q := by
  intro P
  induction P with
  | nil =>
    intro Q r1 r2 h _ hQ
    cases Q with
    | nil => rfl
    | cons b Q2 =>
      rw [List.nil_append, List.cons_append] at h
      injection h with h1 h2
      exact absurd (by rw [h1]; exact List.mem_cons_self b Q2) hQ
  | cons a P2 ih =>
    intro Q r1 r2 h hP hQ
    cases Q with
    | nil =>
      rw [List.nil_append, List.cons_append] at h
      injection h with h1 h2
      exact absurd (by rw [← h1]; exact List.mem_cons_self a P2) hP
    | cons b Q2 =>
      rw [List.cons_append, List.cons_append] at h
      injection h with h1 h2
      rw [h1, ih h2 (fun hm => hP (List.mem_cons_of_mem a hm))
        (fun hm => hQ (List.mem_cons_of_mem b hm))]

/-- A run of satisfying characters is taken wholesale, stopping at the
first failing one. -/
theorem takeWhile_append_stop {α : Type} (p : α → Bool) :
    ∀ (V rest : List α) (x : α), (∀ c ∈ V, p c = true) → p x = false →
      (V ++ x :: rest).takeWhile p = V ∧ (V ++ x :: rest).dropWhile p = x :: rest := by
  intro V
  induction V with
  | nil =>
    intro rest x _ hx
    constructor
    · rw [List.nil_append, List.takeWhile_cons, hx]; rfl
    · rw [List.nil_append, List.dropWhile_cons, hx]; rfl
  | cons a V2 ih =>
    intro rest x hall hx
    have ha := hall a (by simp)
    obtain ⟨iht, ihd⟩ := ih rest x (fun c hc => hall c (List.mem_cons_of_mem a hc)) hx
    constructor
    · rw [List.cons_append, List.takeWhile_cons, ha]
      simp only [if_true, iht]
    · rw [List.cons_append, List.dropWhile_cons, ha]
      simp only [if_true, ihd]

/-! ## Helper lemmas: the appended `class="…"` attribute is the leftmost match -/

/-- Parsing `class\s*=\s*"` at a literal `class="` prefix. -/
theorem classKeyAt_class_dq (X : List Char) :
    classKeyAt dq ("class=\"".toList ++ X) = some 7 := by
  have hT : "class=\"".toList ++ X = "class".toList ++ ('=' :: dq :: X) := rfl
  have h1 : isWs '=' = false := by decide
  have h2 : isWs dq = false := by decide
  have hdrop : ("class=\"".toList ++ X).drop 5 = '=' :: dq :: X := by
    rw [hT]; exact List.drop_left' (by decide)
  rw [classKeyAt, if_pos (isPrefixOf_ex.mpr ⟨'=' :: dq :: X, hT⟩)]
  simp only [hdrop, List.dropWhile_cons, List.takeWhile_cons, h1, h2,
    Bool.false_eq_true, if_false, eq_self_iff_true, if_true]
  rfl

/-- The full match at a literal `class="` prefix: the value is everything up
to the next quote, whatever follows it. -/
theorem classAttrAt_class_dq (v D : List Char) (hv : dq ∉ v) :
    classAttrAt dq false ("class=\"".toList ++ v ++ dq :: D) = some (7 + v.length + 1, v) := by
  have hkey : classKeyAt dq ("class=\"".toList ++ v ++ dq :: D) = some 7 :=
    classKeyAt_class_dq (v ++ dq :: D)
  have hdrop : ("class=\"".toList ++ v ++ dq :: D).drop 7 = v ++ dq :: D := by
    rw [show ("class=\"".toList ++ v ++ dq :: D : List Char)
        = "class=\"".toList ++ (v ++ dq :: D) from by simp]
    exact List.drop_left' (by decide)
  obtain ⟨htw, hdw⟩ := takeWhile_append_stop (fun c => decide (c ≠ dq)) v D dq
    (fun c hc => decide_eq_true (fun h => hv (h ▸ hc))) (by simp)
  rw [classAttrAt, hkey]
  simp only [hdrop]
  simp only [htw, hdw, Bool.false_and, Bool.false_eq_true, if_false, eq_self_iff_true,
    if_true]

/-- In `A ++ class="v" ++ D` with `A` and `v` quote-free, the leftmost
double-quote class match is exactly the explicit attribute: its opening
quote is the first quote of the string, and the only occurrence of
`class\s*=\s*` ending there starts at the literal `class`. -/
theorem findClass_exact (v D : List Char) (hv : dq ∉ v) : ∀ (A : List Char), dq ∉ A →
    findClass dq false (A ++ ("class=\"".toList ++ v ++ dq :: D))
      = some (A.length, 7 + v.length + 1, v) := by
  intro A
  induction A with
  | nil =>
    intro _
    rw [List.nil_append]
    have hXc : ("class=\"".toList ++ v ++ dq :: D : List Char)
        = 'c' :: ("lass=\"".toList ++ v ++ dq :: D) := rfl
    rw [hXc, findClass, ← hXc, classAttrAt_class_dq v D hv]
    rfl
  | cons a A2 ih =>
    intro hA
    rw [List.cons_append, findClass]
    have hnone : classAttrAt dq false
        (a :: (A2 ++ ("class=\"".toList ++ v ++ dq :: D))) = none := by
      have hk : classKeyAt dq (a :: (A2 ++ ("class=\"".toList ++ v ++ dq :: D))) = none := by
        cases hkk : classKeyAt dq (a :: (A2 ++ ("class=\"".toList ++ v ++ dq :: D))) with
        | none => rfl
        | some n =>
          exfalso
          obtain ⟨w1, w2, r2, hw1, hw2, he⟩ := classKeyAt_decomp hkk
          have hstr : "class=\"".toList = "class=".toList ++ [dq] := rfl
          have hshape : a :: (A2 ++ ("class=\"".toList ++ v ++ dq :: D))
              = (a :: A2 ++ "class=".toList) ++ dq :: (v ++ dq :: D) := by
            rw [hstr]; simp
          have hrhs : "class".toList ++ w1 ++ '=' :: w2 ++ dq :: r2
              = ("class".toList ++ w1 ++ '=' :: w2) ++ dq :: r2 := by simp
          rw [hshape, hrhs] at he
          have hQ : dq ∉ (a :: A2 ++ "class=".toList) := by
            intro hm
            rcases List.mem_append.mp hm with hm1 | hm2
            · exact hA hm1
            · exact absurd hm2 (by decide)
          have hP : dq ∉ ("class".toList ++ w1 ++ '=' :: w2) := by
            intro hm
            rcases List.mem_append.mp hm with hm1 | hm2
            · rcases List.mem_append.mp hm1 with hm3 | hm4
              · exact absurd hm3 (by decide)
              · exact absurd (hw1 dq hm4) (by decide)
            · rcases List.mem_cons.mp hm2 with hm5 | hm6
              · exact absurd hm5 (by decide)
              · exact absurd (hw2 dq hm6) (by decide)
          have hQP := first_occ_unique he hQ hP
          have h1 : a :: A2 ++ "class=".toList
              = (a :: A2 ++ "class".toList) ++ ['='] := by
            rw [show ("class=".toList : List Char) = "class".toList ++ ['='] from rfl]
            simp
          rcases w2.eq_nil_or_concat' with hw2e | ⟨ys, y, hys⟩
          · subst hw2e
            have h2 : "class".toList ++ w1 ++ '=' :: ([] : List Char)
                = ("class".toList ++ w1) ++ ['='] := by simp
            rw [h1, h2] at hQP
            have h3 := List.append_cancel_right hQP
            rcases w1.eq_nil_or_concat' with hw1e | ⟨zs, z, hzs⟩
            · subst hw1e
              have hlen := congrArg List.length h3
              simp only [List.length_append, List.length_cons, List.length_nil] at hlen
              omega
            · subst hzs
              have hglQ : (a :: A2 ++ "class".toList).getLast? = some 's' := by
                rw [List.getLast?_append_of_ne_nil _ (by decide)]
                decide
              have hglP : ("class".toList ++ (zs ++ [z])).getLast? = some z := by
                rw [← List.append_assoc, List.getLast?_append_of_ne_nil _ (by simp)]
                rfl
              rw [h3] at hglQ
              have hz : z = 's' := by
                have h4 := hglP.symm.trans hglQ
                injection h4
              have h5 := hw1 z (by simp)
              rw [hz] at h5
              exact absurd h5 (by decide)
          · subst hys
            have h2 : "class".toList ++ w1 ++ '=' :: (ys ++ [y])
                = ("class".toList ++ w1 ++ '=' :: ys) ++ [y] := by simp
            rw [h1, h2] at hQP
            have hglQ : ((a :: A2 ++ "class".toList) ++ ['=']).getLast? = some '=' := by
              rw [List.getLast?_append_of_ne_nil _ (by decide)]
              rfl
            have hglP : (("class".toList ++ w1 ++ '=' :: ys) ++ [y]).getLast? = some y := by
              rw [List.getLast?_append_of_ne_nil _ (by simp)]
              rfl
            rw [hQP] at hglQ
            have hy : y = '=' := by
              have h4 := hglP.symm.trans hglQ
              injection h4
            have h5 := hw2 y (by simp)
            rw [hy] at h5
            exact absurd h5 (by decide)
      rw [classAttrAt, hk]
    rw [hnone]
    rw [ih (fun hm => hA (List.mem_cons_of_mem a hm))]
    rfl

/-- Specialization: the appended `class="V"` attribute after a space, at
the end of the string, is the leftmost match. -/
theorem findClass_appended (V : List Char) (hV : dq ∉ V) : ∀ (A : List Char), dq ∉ A →
    findClass dq false (A ++ ' ' :: ("class=\"".toList ++ V ++ [dq]))
      = some (A.length + 1, 7 + V.length + 1, V) := by
  intro A hA
  have h2 : dq ∉ A ++ [' '] := by
    intro hm
    rcases List.mem_append.mp hm with h1 | h3
    · exact hA h1
    · rw [List.mem_singleton] at h3
      exact absurd h3 (by decide)
  have h3 := findClass_exact V [] hV (A ++ [' ']) h2
  rw [show (A ++ ' ' :: ("class=\"".toList ++ V ++ [dq]) : List Char)
      = (A ++ [' ']) ++ ("class=\"".toList ++ V ++ dq :: []) from by simp]
  rw [h3]
  simp

/-! ## Helper lemmas: shape of the merged attribute string -/

/-- `attrsNorm` keeps a space-headed string containing a non-whitespace
character unchanged. -/
theorem attrsNorm_of_head_space (v : List Char)
    (hm : ∃ c ∈ ' ' :: v, isWs c = false) :
    attrsNorm (' ' :: v) = ' ' :: v := by
  obtain ⟨c, hc, hw⟩ := hm
  rw [attrsNorm.eq_def]
  rw [if_neg (by
    intro hEmp
    have h0 : trimWs (' ' :: v) = [] := by
      cases he : trimWs (' ' :: v) with
      | nil => rfl
      | cons a b => rw [he] at hEmp; exact absurd hEmp (by simp)
    exact trimWs_ne_nil hc hw h0)]
  rfl

/-- `attrsNorm` prepends one space to a non-space-headed string containing
a non-whitespace character. -/
theorem attrsNorm_head_nonspace (a : Char) (tl : List Char) (ha : ¬a = ' ')
    (hm : ∃ c ∈ a :: tl, isWs c = false) :
    attrsNorm (a :: tl) = ' ' :: a :: tl := by
  obtain ⟨c, hc, hw⟩ := hm
  rw [attrsNorm.eq_def]
  rw [if_neg (by
    intro hEmp
    have h0 : trimWs (a :: tl) = [] := by
      cases he : trimWs (a :: tl) with
      | nil => rfl
      | cons x y => rw [he] at hEmp; exact absurd hEmp (by simp)
    exact trimWs_ne_nil hc hw h0)]
  simp only [if_neg ha]

/-- On quote-free attributes the merge takes the append branch, so the
result is a possibly space-headed quote-free prefix followed by the fresh
`class="…"` attribute. -/
theorem update_first_shape (attrs ac : List Char) (lang : Option (List Char))
    (hdqa : dq ∉ attrs) (hsqa : sq ∉ attrs)
    (hne : combinedOf ac lang ≠ []) :
    ∃ A, dq ∉ A ∧ (A = [] ∨ ∃ v, A = ' ' :: v) ∧
      update_or_add_class attrs ac lang
        = A ++ ' ' :: ("class=\"".toList ++ combinedOf ac lang ++ [dq]) := by
  have hfd : findClass dq false attrs = none := findClass_not_mem false attrs hdqa
  have hfs : findClass sq false attrs = none := findClass_not_mem false attrs hsqa
  have hE : (combinedOf ac lang).isEmpty = false := by
    cases h : combinedOf ac lang with
    | nil => exact absurd h hne
    | cons x y => rfl
  by_cases htrim : (trimWs attrs).isEmpty = true
  · refine ⟨[], by simp, Or.inl rfl, ?_⟩
    rw [update_or_add_class]
    simp only [hfd, hfs, hE, htrim, Bool.false_eq_true, if_false, eq_self_iff_true, if_true]
    have hsh : (' ' :: "class=\"".toList ++ combinedOf ac lang ++ [dq] : List Char)
        = ' ' :: ("class=\"".toList ++ combinedOf ac lang ++ [dq]) := by simp
    rw [hsh]
    have hmem : ∃ c ∈ ' ' :: ("class=\"".toList ++ combinedOf ac lang ++ [dq]),
        isWs c = false := by
      refine ⟨'c', ?_, by decide⟩
      refine List.mem_cons.mpr (Or.inr ?_)
      exact List.mem_append.mpr (Or.inl (List.mem_append.mpr (Or.inl (by decide))))
    rw [attrsNorm_of_head_space _ hmem, List.nil_append]
  · have htrimf : (trimWs attrs).isEmpty = false := by
      cases h : (trimWs attrs).isEmpty
      · rfl
      · exact absurd h htrim
    cases attrs with
    | nil => exact absurd rfl htrim
    | cons a tl =>
      have hmem : ∃ c ∈ a :: (tl ++ ' ' :: ("class=\"".toList ++ combinedOf ac lang ++ [dq])),
          isWs c = false := by
        refine ⟨'c', ?_, by decide⟩
        refine List.mem_cons.mpr (Or.inr ?_)
        refine List.mem_append.mpr (Or.inr ?_)
        refine List.mem_cons.mpr (Or.inr ?_)
        exact List.mem_append.mpr (Or.inl (List.mem_append.mpr (Or.inl (by decide))))
      by_cases ha : a = ' '
      · subst ha
        refine ⟨' ' :: tl, hdqa, Or.inr ⟨tl, rfl⟩, ?_⟩
        rw [update_or_add_class]
        simp only [hfd, hfs, hE, htrimf, Bool.false_eq_true, if_false]
        have hsh : (' ' :: tl ++ ' ' :: "class=\"".toList ++ combinedOf ac lang ++ [dq] : List Char)
            = ' ' :: (tl ++ ' ' :: ("class=\"".toList ++ combinedOf ac lang ++ [dq])) := by simp
        rw [hsh, attrsNorm_of_head_space _ hmem]
        simp
      · refine ⟨' ' :: a :: tl, ?_, Or.inr ⟨a :: tl, rfl⟩, ?_⟩
        · intro hm
          rcases List.mem_cons.mp hm with h1 | h2
          · exact absurd h1 (by decide)
          · exact hdqa h2
        · rw [update_or_add_class]
          simp only [hfd, hfs, hE, htrimf, Bool.false_eq_true, if_false]
          have hsh : (a :: tl ++ ' ' :: "class=\"".toList ++ combinedOf ac lang ++ [dq] : List Char)
              = a :: (tl ++ ' ' :: ("class=\"".toList ++ combinedOf ac lang ++ [dq])) := by simp
          rw [hsh, attrsNorm_head_nonspace a _ ha hmem]
          simp

/-- Merging the same class set into the result of a first merge is the
identity, provided the combined value is `$`-free and quote-free and splits
back into its tokens. -/
theorem update_second_fix (A ac : List Char) (lang : Option (List Char))
    (hAdq : dq ∉ A) (hshape : A = [] ∨ ∃ v, A = ' ' :: v)
    (hCdq : dq ∉ combinedOf ac lang) (hCdol : '$' ∉ combinedOf ac lang)
    (hround : joinSp (splitWs (combinedOf ac lang)) = combinedOf ac lang) :
    update_or_add_class (A ++ ' ' :: ("class=\"".toList ++ combinedOf ac lang ++ [dq])) ac lang
      = A ++ ' ' :: ("class=\"".toList ++ combinedOf ac lang ++ [dq]) := by
  have hfind := findClass_appended (combinedOf ac lang) hCdq A hAdq
  have hdol : '$' ∉ ("class=\"".toList ++ combinedOf ac lang ++ [dq] : List Char) := by
    intro hm
    rcases List.mem_append.mp hm with h1 | h2
    · rcases List.mem_append.mp h1 with h3 | h4
      · exact absurd h3 (by decide)
      · exact hCdol h4
    · rw [List.mem_singleton] at h2
      exact absurd h2 (by decide)
  have htake : (A ++ ' ' :: ("class=\"".toList ++ combinedOf ac lang ++ [dq])).take
      (A.length + 1) = A ++ [' '] := by
    rw [show (A ++ ' ' :: ("class=\"".toList ++ combinedOf ac lang ++ [dq]) : List Char)
        = (A ++ [' ']) ++ ("class=\"".toList ++ combinedOf ac lang ++ [dq]) from by simp]
    exact List.take_left' (by simp)
  have hdrop2 : (A ++ ' ' :: ("class=\"".toList ++ combinedOf ac lang ++ [dq])).drop
      (A.length + 1 + (7 + (combinedOf ac lang).length + 1)) = [] := by
    apply List.drop_eq_nil_of_le
    have h7 : ("class=\"".toList).length = 7 := by decide
    simp only [List.length_append, List.length_cons, List.length_nil, h7]
    omega
  have hre : (A ++ [' ']) ++ ("class=\"".toList ++ combinedOf ac lang ++ [dq])
        ++ ([] : List Char)
      = A ++ ' ' :: ("class=\"".toList ++ combinedOf ac lang ++ [dq]) := by simp
  rw [update_or_add_class]
  simp only [hfind]
  rw [pushMissing_of_subset (splitWs (combinedOf ac lang)) (splitWs (combinedOf ac lang))
    (fun t ht => ht)]
  rw [hround]
  rw [expand_no_dollar _ _ _ hdol]
  rw [htake, hdrop2, hre]
  rcases hshape with h | ⟨v, hv⟩
  · subst h
    rw [List.nil_append]
    have hmem : ∃ c ∈ ' ' :: ("class=\"".toList ++ combinedOf ac lang ++ [dq]),
        isWs c = false := by
      refine ⟨'c', ?_, by decide⟩
      refine List.mem_cons.mpr (Or.inr ?_)
      exact List.mem_append.mpr (Or.inl (List.mem_append.mpr (Or.inl (by decide))))
    exact attrsNorm_of_head_space _ hmem
  · subst hv
    have hf : ((' ' :: v) ++ ' ' :: ("class=\"".toList ++ combinedOf ac lang ++ [dq])
          : List Char)
        = ' ' :: (v ++ ' ' :: ("class=\"".toList ++ combinedOf ac lang ++ [dq])) := rfl
    rw [hf]
    have hmem : ∃ c ∈ ' ' :: (v ++ ' ' :: ("class=\"".toList ++ combinedOf ac lang ++ [dq])),
        isWs c = false := by
      refine ⟨'c', ?_, by decide⟩
      refine List.mem_cons.mpr (Or.inr ?_)
      refine List.mem_append.mpr (Or.inr ?_)
      refine List.mem_cons.mpr (Or.inr ?_)
      exact List.mem_append.mpr (Or.inl (List.mem_append.mpr (Or.inl (by decide))))
    exact attrsNorm_of_head_space _ hmem

/-! ## Helper lemmas: token soundness of split and union -/

/-- Tokens produced by the splitter: non-empty, whitespace-free, with all
characters drawn from the input or the accumulator. -/
theorem splitWsAux_sound : ∀ (s acc : List Char), (∀ c ∈ acc, isWs c = false) →
    ∀ t ∈ splitWsAux s acc, t ≠ [] ∧ ∀ c ∈ t, isWs c = false ∧ (c ∈ s ∨ c ∈ acc) := by
  intro s
  induction s with
  | nil =>
    intro acc hacc t ht
    rw [splitWsAux] at ht
    by_cases he : acc.isEmpty
    · rw [if_pos he] at ht
      exact absurd ht (by simp)
    · rw [if_neg he] at ht
      rw [List.mem_singleton] at ht
      subst ht
      constructor
      · intro h0
        have h1 : acc = [] := by simpa using congrArg List.reverse h0
        rw [h1] at he
        exact he rfl
      · intro c hc
        rw [List.mem_reverse] at hc
        exact ⟨hacc c hc, Or.inr hc⟩
  | cons x rest ih =>
    intro acc hacc t ht
    rw [splitWsAux] at ht
    by_cases hx : isWs x = true
    · rw [if_pos hx] at ht
      by_cases he : acc.isEmpty
      · rw [if_pos he] at ht
        obtain ⟨h1, h2⟩ := ih [] (by simp) t ht
        refine ⟨h1, fun c hc => ?_⟩
        obtain ⟨h3, h4⟩ := h2 c hc
        rcases h4 with h5 | h5
        · exact ⟨h3, Or.inl (List.mem_cons_of_mem x h5)⟩
        · exact absurd h5 (by simp)
      · rw [if_neg he] at ht
        rcases List.mem_cons.mp ht with h1 | h2
        · subst h1
          constructor
          · intro h0
            have h1 : acc = [] := by simpa using congrArg List.reverse h0
            rw [h1] at he
            exact he rfl
          · intro c hc
            rw [List.mem_reverse] at hc
            exact ⟨hacc c hc, Or.inr hc⟩
        · obtain ⟨h1, h3⟩ := ih [] (by simp) t h2
          refine ⟨h1, fun c hc => ?_⟩
          obtain ⟨h4, h5⟩ := h3 c hc
          rcases h5 with h6 | h6
          · exact ⟨h4, Or.inl (List.mem_cons_of_mem x h6)⟩
          · exact absurd h6 (by simp)
    · rw [if_neg hx] at ht
      have hxf : isWs x = false := by
        cases hxx : isWs x
        · rfl
        · exact absurd hxx hx
      obtain ⟨h1, h2⟩ := ih (x :: acc) (by
        intro c hc
        rcases List.mem_cons.mp hc with h3 | h4
        · subst h3; exact hxf
        · exact hacc c h4) t ht
      refine ⟨h1, fun c hc => ?_⟩
      obtain ⟨h3, h4⟩ := h2 c hc
      rcases h4 with h5 | h5
      · exact ⟨h3, Or.inl (List.mem_cons_of_mem x h5)⟩
      · rcases List.mem_cons.mp h5 with h6 | h7
        · subst h6; exact ⟨h3, Or.inl (List.mem_cons_self _ _)⟩
        · exact ⟨h3, Or.inr h7⟩

/-- `splitWs` tokens are non-empty, whitespace-free and drawn from the
input string. -/
theorem splitWs_sound (s : List Char) : ∀ t ∈ splitWs s,
    (t ≠ [] ∧ ∀ c ∈ t, isWs c = false) ∧ ∀ c ∈ t, c ∈ s := by
  intro t ht
  obtain ⟨h1, h2⟩ := splitWsAux_sound s [] (by simp) t ht
  refine ⟨⟨h1, fun c hc => (h2 c hc).1⟩, fun c hc => ?_⟩
  rcases (h2 c hc).2 with h3 | h3
  · exact h3
  · exact absurd h3 (by simp)

/-- The token union extends the first list on the right. -/
theorem pushMissing_append : ∀ (new parts : List (List Char)),
    ∃ ex, pushMissing parts new = parts ++ ex := by
  intro new
  induction new with
  | nil => intro parts; exact ⟨[], by simp [pushMissing]⟩
  | cons t ts ih =>
    intro parts
    rw [pushMissing]
    by_cases h : parts.contains t
    · rw [if_pos h]; exact ih parts
    · rw [if_neg h]
      obtain ⟨ex, hex⟩ := ih (parts ++ [t])
      exact ⟨[t] ++ ex, by rw [hex]; simp⟩

/-- Every pushed token ends up in the union. -/
theorem mem_pushMissing_new : ∀ (new parts : List (List Char)) (t : List Char),
    t ∈ new → t ∈ pushMissing parts new := by
  intro new
  induction new with
  | nil => intro parts t ht; exact absurd ht (by simp)
  | cons s ts ih =>
    intro parts t ht
    rw [pushMissing]
    rcases List.mem_cons.mp ht with h1 | h2
    · subst h1
      by_cases h : parts.contains t
      · rw [if_pos h]
        obtain ⟨ex, hex⟩ := pushMissing_append ts parts
        rw [hex]
        exact List.mem_append.mpr (Or.inl (by simpa using h))
      · rw [if_neg h]
        obtain ⟨ex, hex⟩ := pushMissing_append ts (parts ++ [t])
        rw [hex]
        refine List.mem_append.mpr (Or.inl ?_)
        exact List.mem_append.mpr (Or.inr (by simp))
    · by_cases h : parts.contains s
      · rw [if_pos h]; exact ih parts t h2
      · rw [if_neg h]; exact ih (parts ++ [s]) t h2

/-- Every token of the union comes from one of the two lists. -/
theorem mem_pushMissing : ∀ (new parts : List (List Char)) (t : List Char),
    t ∈ pushMissing parts new → t ∈ parts ∨ t ∈ new := by
  intro new
  induction new with
  | nil => intro parts t ht; rw [pushMissing] at ht; exact Or.inl ht
  | cons s ts ih =>
    intro parts t ht
    rw [pushMissing] at ht
    by_cases h : parts.contains s
    · rw [if_pos h] at ht
      rcases ih parts t ht with h1 | h2
      · exact Or.inl h1
      · exact Or.inr (List.mem_cons_of_mem s h2)
    · rw [if_neg h] at ht
      rcases ih (parts ++ [s]) t ht with h1 | h2
      · rcases List.mem_append.mp h1 with h3 | h4
        · exact Or.inl h3
        · rw [List.mem_singleton] at h4
          subst h4
          exact Or.inr (List.mem_cons_self _ _)
      · exact Or.inr (List.mem_cons_of_mem s h2)

/-! ## Helper lemmas: merging into an existing class attribute -/

/-- A first merge into an explicit `class="v"` attribute rewrites the value
to the token union and normalizes the prefix to start with one space. -/
theorem update_match_shape (A v D ac : List Char) (lang : Option (List Char))
    (hA : dq ∉ A) (hv : dq ∉ v) (hvd : '$' ∉ v)
    (hCdol : '$' ∉ combinedOf ac lang) :
    ∃ u, dq ∉ (' ' :: u : List Char) ∧
      update_or_add_class (A ++ ("class=\"".toList ++ v ++ dq :: D)) ac lang
        = (' ' :: u) ++ ("class=\"".toList
            ++ joinSp (pushMissing (splitWs v) (splitWs (combinedOf ac lang))) ++ dq :: D) := by
  have hfind := findClass_exact v D hv A hA
  have hdoltmpl : '$' ∉ ("class=\"".toList
      ++ joinSp (pushMissing (splitWs v) (splitWs (combinedOf ac lang))) ++ [dq] : List Char) := by
    intro hm
    rcases List.mem_append.mp hm with h1 | h2
    · rcases List.mem_append.mp h1 with h3 | h4
      · exact absurd h3 (by decide)
      · rcases mem_joinSp h4 with h5 | ⟨t, ht, hc⟩
        · exact absurd h5 (by decide)
        · rcases mem_pushMissing _ _ t ht with h6 | h6
          · exact hvd ((splitWs_sound v t h6).2 '$' hc)
          · exact hCdol ((splitWs_sound (combinedOf ac lang) t h6).2 '$' hc)
    · rw [List.mem_singleton] at h2
      exact absurd h2 (by decide)
  have htake : (A ++ ("class=\"".toList ++ v ++ dq :: D)).take A.length = A :=
    List.take_left' rfl
  have hdrop : (A ++ ("class=\"".toList ++ v ++ dq :: D)).drop
      (A.length + (7 + v.length + 1)) = D := by
    rw [show (A ++ ("class=\"".toList ++ v ++ dq :: D) : List Char)
        = (A ++ ("class=\"".toList ++ v ++ [dq])) ++ D from by simp]
    refine List.drop_left' ?_
    have h7 : ("class=\"".toList).length = 7 := by decide
    simp only [List.length_append, List.length_cons, List.length_nil, h7]
  rw [update_or_add_class]
  simp only [hfind]
  rw [expand_no_dollar _ _ _ hdoltmpl]
  rw [htake, hdrop]
  have hcan : (A ++ ("class=\"".toList
        ++ joinSp (pushMissing (splitWs v) (splitWs (combinedOf ac lang))) ++ [dq])) ++ D
      = A ++ ("class=\"".toList
        ++ joinSp (pushMissing (splitWs v) (splitWs (combinedOf ac lang))) ++ dq :: D) := by
    simp
  rw [hcan]
  cases A with
  | nil =>
    refine ⟨[], by decide, ?_⟩
    rw [List.nil_append]
    have hW : ("class=\"".toList
          ++ joinSp (pushMissing (splitWs v) (splitWs (combinedOf ac lang))) ++ dq :: D
          : List Char)
        = 'c' :: ("lass=\"".toList
          ++ joinSp (pushMissing (splitWs v) (splitWs (combinedOf ac lang))) ++ dq :: D) := rfl
    rw [hW]
    rw [attrsNorm_head_nonspace 'c' _ (by decide) ⟨'c', List.mem_cons_self _ _, by decide⟩]
    rfl
  | cons a t =>
    by_cases ha : a = ' '
    · subst ha
      refine ⟨t, hA, ?_⟩
      have hf : ((' ' :: t) ++ ("class=\"".toList
            ++ joinSp (pushMissing (splitWs v) (splitWs (combinedOf ac lang))) ++ dq :: D)
            : List Char)
          = ' ' :: (t ++ ("class=\"".toList
            ++ joinSp (pushMissing (splitWs v) (splitWs (combinedOf ac lang))) ++ dq :: D)) := rfl
      rw [hf]
      have hmem : ∃ c ∈ ' ' :: (t ++ ("class=\"".toList
          ++ joinSp (pushMissing (splitWs v) (splitWs (combinedOf ac lang))) ++ dq :: D)),
          isWs c = false := by
        refine ⟨'c', ?_, by decide⟩
        refine List.mem_cons.mpr (Or.inr ?_)
        refine List.mem_append.mpr (Or.inr ?_)
        exact List.mem_append.mpr (Or.inl (List.mem_append.mpr (Or.inl (by decide))))
      rw [attrsNorm_of_head_space _ hmem]
    · refine ⟨a :: t, ?_, ?_⟩
      · intro hm
        rcases List.mem_cons.mp hm with h1 | h2
        · exact absurd h1 (by decide)
        · exact hA h2
      · have hf : ((a :: t) ++ ("class=\"".toList
              ++ joinSp (pushMissing (splitWs v) (splitWs (combinedOf ac lang))) ++ dq :: D)
              : List Char)
            = a :: (t ++ ("class=\"".toList
              ++ joinSp (pushMissing (splitWs v) (splitWs (combinedOf ac lang))) ++ dq :: D)) := rfl
        rw [hf]
        have hmem : ∃ c ∈ a :: (t ++ ("class=\"".toList
            ++ joinSp (pushMissing (splitWs v) (splitWs (combinedOf ac lang))) ++ dq :: D)),
            isWs c = false := by
          refine ⟨'c', ?_, by decide⟩
          refine List.mem_cons.mpr (Or.inr ?_)
          refine List.mem_append.mpr (Or.inr ?_)
          exact List.mem_append.mpr (Or.inl (List.mem_append.mpr (Or.inl (by decide))))
        rw [attrsNorm_head_nonspace a _ ha hmem]
        rfl

/-- A second merge into the rewritten `class="w"` attribute is the
identity, provided `w` is quote-free and `$`-free, splits back into its
tokens, and already contains every combined token. -/
theorem update_match_fix (u w D ac : List Char) (lang : Option (List Char))
    (hu : dq ∉ (' ' :: u : List Char)) (hw : dq ∉ w) (hwd : '$' ∉ w)
    (hpush : pushMissing (splitWs w) (splitWs (combinedOf ac lang)) = splitWs w)
    (hjoin : joinSp (splitWs w) = w) :
    update_or_add_class ((' ' :: u) ++ ("class=\"".toList ++ w ++ dq :: D)) ac lang
      = (' ' :: u) ++ ("class=\"".toList ++ w ++ dq :: D) := by
  have hfind := findClass_exact w D hw (' ' :: u) hu
  have hdol : '$' ∉ ("class=\"".toList ++ w ++ [dq] : List Char) := by
    intro hm
    rcases List.mem_append.mp hm with h1 | h2
    · rcases List.mem_append.mp h1 with h3 | h4
      · exact absurd h3 (by decide)
      · exact hwd h4
    · rw [List.mem_singleton] at h2
      exact absurd h2 (by decide)
  have htake : ((' ' :: u) ++ ("class=\"".toList ++ w ++ dq :: D)).take
      ((' ' :: u : List Char)).length = ' ' :: u :=
    List.take_left' rfl
  have hdrop : ((' ' :: u) ++ ("class=\"".toList ++ w ++ dq :: D)).drop
      ((' ' :: u : List Char).length + (7 + w.length + 1)) = D := by
    rw [show ((' ' :: u) ++ ("class=\"".toList ++ w ++ dq :: D) : List Char)
        = ((' ' :: u) ++ ("class=\"".toList ++ w ++ [dq])) ++ D from by simp]
    refine List.drop_left' ?_
    have h7 : ("class=\"".toList).length = 7 := by decide
    simp only [List.length_append, List.length_cons, List.length_nil, h7]
  rw [update_or_add_class]
  simp only [hfind]
  rw [hpush, hjoin]
  rw [expand_no_dollar _ _ _ hdol]
  rw [htake, hdrop]
  have hcan : ((' ' :: u) ++ ("class=\"".toList ++ w ++ [dq])) ++ D
      = ' ' :: (u ++ ("class=\"".toList ++ w ++ dq :: D)) := by simp
  rw [hcan]
  have hmem : ∃ c ∈ ' ' :: (u ++ ("class=\"".toList ++ w ++ dq :: D)), isWs c = false := by
    refine ⟨'c', ?_, by decide⟩
    refine List.mem_cons.mpr (Or.inr ?_)
    refine List.mem_append.mpr (Or.inr ?_)
    exact List.mem_append.mpr (Or.inl (List.mem_append.mpr (Or.inl (by decide))))
  rw [attrsNorm_of_head_space _ hmem]
  simp

/-! ## Claim theorems: C5 -/

/-- Claim C5 counterexample: `update_or_add_class` is not idempotent as
stated. On the attribute string ` class="a$0"` with class set
`sourceCode`, the `&str` replacer interpolates `$0` as the whole match, so
the first merge duplicates the attribute text and a second merge changes
the string again. -/
theorem c5_counterexample :
    update_or_add_class
        (update_or_add_class (" class=\"a$0\"".toList) ("sourceCode".toList) none)
        ("sourceCode".toList) none
      ≠ update_or_add_class (" class=\"a$0\"".toList) ("sourceCode".toList) none := by
  decide

/-- Claim C5 (amended): attribute merging is idempotent away from `$`
capture references, in both branches of the merge — for a quote-free
attribute string (the fresh-attribute branch), and for an attribute string
made of a quote-free prefix, an explicit `class="v"` attribute whose value
is quote-free and `$`-free, and an arbitrary suffix (the existing-attribute
branch); the class set is given as safe tokens (non-empty,
whitespace-free, quote-free, `$`-free) with an optional safe language. -/
theorem c5_merge_idempotent (attrs : List Char) (cs : List (List Char))
    (lang : Option (List Char))
    (hattrs : (∀ c ∈ attrs, c ≠ dq ∧ c ≠ sq) ∨
      ∃ A v D, attrs = A ++ ("class=\"".toList ++ v ++ dq :: D) ∧
        dq ∉ A ∧ dq ∉ v ∧ '$' ∉ v)
    (hcs : cs ≠ []) (hsafe : ∀ t ∈ cs, SafeToken t)
    (hlang : ∀ l, lang = some l → SafeToken l) :
    update_or_add_class (update_or_add_class attrs (joinSp cs) lang) (joinSp cs) lang
      = update_or_add_class attrs (joinSp cs) lang := by
  obtain ⟨T, hTne, hTtok, hTC⟩ : ∃ T, T ≠ [] ∧ (∀ t ∈ T, SafeToken t) ∧
      joinSp T = combinedOf (joinSp cs) lang := by
    cases lang with
    | none => exact ⟨cs, hcs, hsafe, rfl⟩
    | some l =>
      refine ⟨cs ++ [l], by simp, fun t ht => ?_, ?_⟩
      · rcases List.mem_append.mp ht with h1 | h2
        · exact hsafe t h1
        · rw [List.mem_singleton] at h2
          subst h2
          exact hlang t rfl
      · have hne : joinSp cs ≠ [] := joinSp_ne_nil hcs (fun t ht => (hsafe t ht).1)
        have hEf : (joinSp cs).isEmpty = false := by
          cases h : joinSp cs with
          | nil => exact absurd h hne
          | cons x y => rfl
        show joinSp (cs ++ [l]) = if (joinSp cs).isEmpty then l else joinSp cs ++ ' ' :: l
        rw [hEf, if_neg (by simp), joinSp_append_single cs l hcs]
  have hCne : combinedOf (joinSp cs) lang ≠ [] := by
    rw [← hTC]
    exact joinSp_ne_nil hTne (fun t ht => (hTtok t ht).1)
  have hCdq : dq ∉ combinedOf (joinSp cs) lang := by
    rw [← hTC]
    intro hm
    rcases mem_joinSp hm with h1 | ⟨t, ht, hc⟩
    · exact absurd h1 (by decide)
    · exact ((hTtok t ht).2 dq hc).2.1 rfl
  have hCdol : '$' ∉ combinedOf (joinSp cs) lang := by
    rw [← hTC]
    intro hm
    rcases mem_joinSp hm with h1 | ⟨t, ht, hc⟩
    · exact absurd h1 (by decide)
    · exact ((hTtok t ht).2 '$' hc).2.2 rfl
  have hsplitC : splitWs (combinedOf (joinSp cs) lang) = T := by
    rw [← hTC]
    exact splitWs_join T hTne
      (fun t ht => ⟨(hTtok t ht).1, fun c hc => ((hTtok t ht).2 c hc).1⟩)
  rcases hattrs with hqf | ⟨A, v, D, hshape, hA, hv, hvd⟩
  · have hround : joinSp (splitWs (combinedOf (joinSp cs) lang))
        = combinedOf (joinSp cs) lang := by
      rw [hsplitC, hTC]
    obtain ⟨A, hAdq, hAshape, hupd⟩ := update_first_shape attrs (joinSp cs) lang
      (fun hm => (hqf dq hm).1 rfl) (fun hm => (hqf sq hm).2 rfl) hCne
    rw [hupd]
    exact update_second_fix A (joinSp cs) lang hAdq hAshape hCdq hCdol hround
  · subst hshape
    have hptok : ∀ t ∈ pushMissing (splitWs v) (splitWs (combinedOf (joinSp cs) lang)),
        t ≠ [] ∧ ∀ c ∈ t, isWs c = false := by
      intro t ht
      rcases mem_pushMissing _ _ t ht with h1 | h1
      · exact (splitWs_sound v t h1).1
      · rw [hsplitC] at h1
        exact ⟨(hTtok t h1).1, fun c hc => ((hTtok t h1).2 c hc).1⟩
    have hpne : pushMissing (splitWs v) (splitWs (combinedOf (joinSp cs) lang)) ≠ [] := by
      cases hT0 : T with
      | nil => exact absurd hT0 hTne
      | cons t0 ts =>
        have ht0 : t0 ∈ splitWs (combinedOf (joinSp cs) lang) := by
          rw [hsplitC, hT0]
          exact List.mem_cons_self _ _
        have hmm := mem_pushMissing_new _ (splitWs v) t0 ht0
        intro h0
        rw [h0] at hmm
        exact absurd hmm (by simp)
    have hsplitw : splitWs (joinSp (pushMissing (splitWs v)
          (splitWs (combinedOf (joinSp cs) lang))))
        = pushMissing (splitWs v) (splitWs (combinedOf (joinSp cs) lang)) :=
      splitWs_join _ hpne hptok
    have hwdq : dq ∉ joinSp (pushMissing (splitWs v)
        (splitWs (combinedOf (joinSp cs) lang))) := by
      intro hm
      rcases mem_joinSp hm with h1 | ⟨t, ht, hc⟩
      · exact absurd h1 (by decide)
      · rcases mem_pushMissing _ _ t ht with h2 | h2
        · exact hv ((splitWs_sound v t h2).2 dq hc)
        · rw [hsplitC] at h2
          exact ((hTtok t h2).2 dq hc).2.1 rfl
    have hwdol : '$' ∉ joinSp (pushMissing (splitWs v)
        (splitWs (combinedOf (joinSp cs) lang))) := by
      intro hm
      rcases mem_joinSp hm with h1 | ⟨t, ht, hc⟩
      · exact absurd h1 (by decide)
      · rcases mem_pushMissing _ _ t ht with h2 | h2
        · exact hvd ((splitWs_sound v t h2).2 '$' hc)
        · rw [hsplitC] at h2
          exact ((hTtok t h2).2 '$' hc).2.2 rfl
    have hpush : pushMissing (splitWs (joinSp (pushMissing (splitWs v)
          (splitWs (combinedOf (joinSp cs) lang)))))
          (splitWs (combinedOf (joinSp cs) lang))
        = splitWs (joinSp (pushMissing (splitWs v)
          (splitWs (combinedOf (joinSp cs) lang)))) := by
      rw [hsplitw]
      exact pushMissing_of_subset _ _ (fun t ht => mem_pushMissing_new _ _ t ht)
    have hjoin : joinSp (splitWs (joinSp (pushMissing (splitWs v)
          (splitWs (combinedOf (joinSp cs) lang)))))
        = joinSp (pushMissing (splitWs v) (splitWs (combinedOf (joinSp cs) lang))) := by
      rw [hsplitw]
    obtain ⟨u, hu, hupd⟩ := update_match_shape A v D (joinSp cs) lang hA hv hvd hCdol
    rw [hupd]
    exact update_match_fix u (joinSp (pushMissing (splitWs v)
      (splitWs (combinedOf (joinSp cs) lang)))) D (joinSp cs) lang hu hwdq hwdol hpush hjoin

/-- Claim C5 witness: a concrete instance of the amended idempotence in the
existing-attribute branch, on the attribute string ` class="a"`, with
marker class `sourceCode` and language `rust`. -/
theorem c5_merge_idempotent_w :
    update_or_add_class
        (update_or_add_class (" class=\"a\"".toList) (joinSp ["sourceCode".toList])
          (some ("rust".toList)))
        (joinSp ["sourceCode".toList]) (some ("rust".toList))
      = update_or_add_class (" class=\"a\"".toList) (joinSp ["sourceCode".toList])
          (some ("rust".toList)) :=
  c5_merge_idempotent (" class=\"a\"".toList) ["sourceCode".toList] (some ("rust".toList))
    (Or.inr ⟨[' '], ['a'], [], by decide, by decide, by decide, by decide⟩)
    (by simp)
    (by
      intro t ht
      rw [List.mem_singleton] at ht
      subst ht
      exact ⟨by decide, by decide⟩)
    (by
      intro l hl
      injection hl with h2
      subst h2
      exact ⟨by decide, by decide⟩)

/-- Claim C6 witness: on the all-whitespace attribute string `␣␣` with
class set `sourceCode`, the merge yields exactly one leading space
followed by the fresh class attribute. -/
theorem c6_normalized_output_w :
    update_or_add_class ("  ".toList) ("sourceCode".toList) none
      = ' ' :: "class=\"".toList ++ combinedOf ("sourceCode".toList) none ++ [dq] :=
  (c6_normalized_output ("  ".toList) ("sourceCode".toList) none (by decide)).1 (by decide)

end Htmlhl
